import Mathlib

/-!
# Verification of the `uno` networking framework

A shallow embedding, in Lean 4, of the parts of the `uno` Go networking
framework that the specification's claims are about:

* the connection engine's idle-check in `Conn.mainLoop`, its activity
  timestamp (`Conn.Touch` / `Conn.LastActive`), its lifecycle flags
  (`Conn.Start` / `Conn.Close` / `Conn.Send` / `Conn.IsActive`);
* the UDP server's idle-timeout selection (`Server.Listen`) and the
  pseudo-connection reaper (`Server.reaper` / `UDPSession.Reaper`);
* the four bundled framers (`RawFramer`, `DelimiterFramer`,
  `FixedLengthFramer`, `LengthFieldFramer`), modelled with explicit fuel
  and with Go slice-expression panics made explicit;
* the token bucket (`NewAtomicBucket` / `AtomicBucket.Allow`) and the
  rate-limit middleware (`RateLimitHandler`);
* the middleware chain (`Chain.Handler`), the router middleware
  (`RouterHandler`), route/group handler assembly
  (`RouterGroup.Handlers` / `Route.Handlers`), and the router's
  LRU-cached `Router.Match` / `Router.insert`.

Go machine integers are modelled as `Int` with explicit wrapping
(`% 2^64`) where the code can overflow, byte buffers as `List Nat`,
and fallible slice expressions as `Option`-valued functions.
-/

set_option autoImplicit false

namespace Uno

/-! ## Go integer and time primitives -/

/-- Smallest `int64` value. -/
def int64Min : Int := -(2 ^ 63)

/-- Largest `int64` value. -/
def int64Max : Int := 2 ^ 63 - 1

/-- Reduce an unbounded integer to the `int64` it would be stored as
(two's-complement wrap-around). -/
def wrap64 (x : Int) : Int := (x + 2 ^ 63) % 2 ^ 64 - 2 ^ 63

/-- Go's conversion `uint64(x)` of a signed 64-bit value `x`:
the representative of `x` modulo `2^64` in `[0, 2^64)`. -/
def toU64 (x : Int) : Nat := (x % 2 ^ 64).toNat

/-- Go's conversion `int(n)` of a `uint64` value `n` on a 64-bit
platform: values at or above `2^63` become negative. -/
def u64ToInt64 (n : Nat) : Int := if n < 2 ^ 63 then (n : Int) else (n : Int) - 2 ^ 64

/-- Go's `time.Time.Sub`, in nanoseconds: the true difference,
saturated to the `time.Duration` (`int64`) range. -/
def goTimeSub (aNs bNs : Int) : Int := max int64Min (min int64Max (aNs - bNs))

/-! ## Connection engine: idle check (`Conn.mainLoop`, `Conn.Touch`)

`Conn.Touch` stores `time.Now().UnixNano()` — a *nanosecond* count —
into the atomic `c.last`.  `Conn.LastActive` reads it back with
`time.Unix(0, c.last.Load())`, i.e. as nanoseconds.  The idle branch of
`Conn.mainLoop`, however, reads it with `time.Unix(c.last.Load(), 0)`,
interpreting the stored nanosecond count as *seconds*. -/

/-- The value `time.Since(last)` computed by the idle branch of
`Conn.mainLoop`, where `lastStored` is the raw value stored by
`Conn.Touch` (nanoseconds) and `nowNs` the current Unix time in
nanoseconds.  `time.Unix(sec, 0)` denotes the instant `sec * 10^9` ns,
and `Sub` saturates to the `int64` duration range. -/
def mainLoopIdleElapsed (lastStored nowNs : Int) : Int :=
  goTimeSub nowNs (lastStored * 10 ^ 9)

/-- The idle branch's firing condition in `Conn.mainLoop`:
`time.Since(last) > c.Cfg.IdleTimeout`. -/
def mainLoopIdleFires (lastStored nowNs idleTimeout : Int) : Bool :=
  idleTimeout < mainLoopIdleElapsed lastStored nowNs

/-- What the specification says the idle check compares: the elapsed
nanoseconds since the stored last-activity timestamp, against the idle
threshold. -/
def specIdleFires (lastStored nowNs idleTimeout : Int) : Bool :=
  idleTimeout < nowNs - lastStored

/-! ## UDP server: idle-timeout selection and the reaper -/

/-- The idle threshold computed by `Server.Listen` (udp/server.go,
lines 103–108) from the configured `IdleTimeout` (nanoseconds):

```go
idleTimeout := s.cfg.IdleTimeout
if idleTimeout > 0 {
    idleTimeout = 5 * time.Minute
}
```
-/
def listenIdleTimeout (cfgIdleTimeout : Int) : Int :=
  if 0 < cfgIdleTimeout then 5 * 60 * 10 ^ 9 else cfgIdleTimeout

/-- The reaper's ticker period, `idle / 2` (Go `int64` division
truncates toward zero). -/
def reaperTickInterval (idle : Int) : Int := Int.tdiv idle 2

/-- One sweep of `UDPSession.Reaper`: a pseudo-connection with raw
last-activity value `lastNs` (read back correctly via
`time.Unix(0, c.last.Load())`) is removed and closed exactly when
`now.Sub(uc.LastActive()) > idle`. -/
def reaperRemoves (nowNs lastNs idle : Int) : Bool :=
  idle < goTimeSub nowNs lastNs

/-- The map entries surviving one `UDPSession.Reaper` sweep. -/
def reaperSweep (nowNs idle : Int) (conns : List (Nat × Int)) : List (Nat × Int) :=
  conns.filter fun kv => ¬ reaperRemoves nowNs kv.2 idle

/-! ## Connection lifecycle (`Conn.Start`, `Conn.Close`, `Conn.Send`) -/

/-- The lifecycle-relevant fields of `conn.Conn`: the `startOnce` /
`closeOnce` guards, the `active` flag, and whether the connection's
context has been canceled. -/
structure ConnState where
  started : Bool
  closeCalled : Bool
  active : Bool
  ctxCanceled : Bool
  deriving Repr, DecidableEq

/-- A fresh connection, as built by `NewConn`. -/
def ConnState.init : ConnState :=
  { started := false, closeCalled := false, active := false, ctxCanceled := false }

/-- Lifecycle-affecting events on a connection. `cancelScope` covers
every other path that cancels the connection's context (parent
cancellation, the write loop seeing `net.ErrClosed`). -/
inductive ConnEvent where
  | start
  | close
  | cancelScope
  deriving Repr, DecidableEq

/-- One lifecycle step.  `Conn.Start` runs its body under `startOnce`
and stores `true` into `active`; `Conn.Close` runs under `closeOnce`
and only cancels the context (and waits); nothing ever stores `false`
into `active`. -/
def ConnState.step (s : ConnState) : ConnEvent → ConnState
  | .start => if s.started then s else { s with started := true, active := true }
  | .close => if s.closeCalled then s else { s with closeCalled := true, ctxCanceled := true }
  | .cancelScope => { s with ctxCanceled := true }

/-- Run a sequence of lifecycle events. -/
def ConnState.run (s : ConnState) : List ConnEvent → ConnState
  | [] => s
  | e :: es => (s.step e).run es

/-- `Conn.IsActive` returns the `active` flag. -/
def ConnState.isActive (s : ConnState) : Bool := s.active

/-- The possible outcomes of `Conn.Send`'s two guard branches:
`errInactive` is `net.ErrClosed` returned because `!c.IsActive()`,
`errScopeCanceled` is `net.ErrClosed` returned from the
`<-c.Ctx.Done()` select branch, `enqueued` means the message entered
the send queue. -/
inductive SendOutcome where
  | errInactive
  | errScopeCanceled
  | enqueued
  deriving Repr, DecidableEq

/-- `Conn.Send`'s guard structure: the activity flag is checked first;
only afterwards does the select race the canceled scope against the
queue.  (When the scope is canceled the closed error is the only
guaranteed outcome; we model the error branch.) -/
def ConnState.send (s : ConnState) : SendOutcome :=
  if ¬ s.isActive then .errInactive
  else if s.ctxCanceled then .errScopeCanceled
  else .enqueued

/-! ## Token bucket (`AtomicBucket`) and rate-limit middleware -/

/-- The fields of `AtomicBucket` (encoder.go).  All times are Unix
nanoseconds. -/
structure Bucket where
  capacity : Int
  tokens : Int
  refillRate : Int
  lastRefill : Int
  lastAccess : Int
  deriving Repr, DecidableEq

/-- `NewAtomicBucket(rate, burst)` called at time `now`. -/
def NewAtomicBucket (rate burst now : Int) : Bucket :=
  { capacity := burst, tokens := burst, refillRate := rate,
    lastRefill := now, lastAccess := now }

/-- The refill phase of `AtomicBucket.Allow`: when time has elapsed
since `lastRefill`, add `elapsed * refillRate / 1e9` tokens (Go `int64`
division truncates toward zero) capped at `capacity`, and advance
`lastRefill` — but only when the computed amount is positive. -/
def Bucket.refill (b : Bucket) (now : Int) : Bucket :=
  let elapsed := now - b.lastRefill
  if 0 < elapsed then
    let newTokens := Int.tdiv (elapsed * b.refillRate) (10 ^ 9)
    if 0 < newTokens then
      { b with tokens := min (b.tokens + newTokens) b.capacity, lastRefill := now }
    else b
  else b

/-- `AtomicBucket.Allow`, sequentially: refill, then consume one token
if any remain, recording `lastAccess` either way. -/
def Bucket.allow (b : Bucket) (now : Int) : Bool × Bucket :=
  let b1 := b.refill now
  if b1.tokens ≤ 0 then (false, { b1 with lastAccess := now })
  else (true, { b1 with tokens := b1.tokens - 1, lastAccess := now })

/-- The potential invariant behind the admission bound: for a bucket
created at `tc` with the given rate and burst, after any prefix of
calls admitting `n` of them, `n` plus the remaining tokens is at most
the burst plus the tokens refillable over `[tc, lastRefill]`, and
`lastRefill` never leaves `{tc} ∪ (-∞, t0 + d]`. -/
def BucketBoundInv (rate burst tc t0 d n : Int) (b : Bucket) : Prop :=
  b.capacity = burst ∧ b.refillRate = rate ∧ 0 ≤ b.tokens ∧
  tc ≤ b.lastRefill ∧ (b.lastRefill = tc ∨ b.lastRefill ≤ t0 + d) ∧
  n + b.tokens ≤ burst + (rate * (b.lastRefill - tc)) / 10 ^ 9

/-- Run `Allow` at each timestamp in turn; return the number of calls
that returned `true` and the final bucket. -/
def Bucket.runAllow (b : Bucket) : List Int → Nat × Bucket
  | [] => (0, b)
  | t :: ts =>
    let r := b.allow t
    let rest := r.2.runAllow ts
    ((if r.1 then 1 else 0) + rest.1, rest.2)

/-- What `RateLimitHandler`'s returned handler does on one message:
which bucket calls it made, whether it invoked the `limit` handler and
whether it called `next`. -/
structure RLOutcome where
  nextCalled : Bool
  limitCalled : Bool
  globalConsulted : Bool
  deriving Repr, DecidableEq

/-- State owned by one `RateLimitHandler` instance: the lazily filled
per-connection bucket map (`sync.Map` keyed by connection id) and the
shared global bucket. -/
structure RLState where
  connBuckets : List (String × Bucket)
  global : Bucket

/-- Insert-or-replace in the per-connection bucket map. -/
def setBucket (k : String) (b : Bucket) : List (String × Bucket) → List (String × Bucket)
  | [] => [(k, b)]
  | (k', b') :: rest => if k' = k then (k, b) :: rest else (k', b') :: setBucket k b rest

/-- Find a connection's bucket. -/
def getBucket (k : String) : List (String × Bucket) → Option Bucket
  | [] => none
  | (k', b') :: rest => if k' = k then some b' else getBucket k rest

/-- One message through `RateLimitHandler`'s returned closure at time
`now`: `LoadOrStore` the connection's bucket (created lazily with
`NewAtomicBucket(connRate, connBurst)`), then
`if !tb.Allow() || !global.Allow()` — note `||` short-circuits, so the
global bucket is consulted only when the connection bucket granted —
run `limit` (when non-nil) and return, else call `next`. -/
def rateLimitStep (connRate connBurst : Int) (hasLimit : Bool)
    (s : RLState) (connId : String) (now : Int) : RLOutcome × RLState :=
  let tb := (getBucket connId s.connBuckets).getD (NewAtomicBucket connRate connBurst now)
  let rc := tb.allow now
  if rc.1 then
    let rg := s.global.allow now
    if rg.1 then
      (⟨true, false, true⟩,
       { connBuckets := setBucket connId rc.2 s.connBuckets, global := rg.2 })
    else
      (⟨false, hasLimit, true⟩,
       { connBuckets := setBucket connId rc.2 s.connBuckets, global := rg.2 })
  else
    (⟨false, hasLimit, false⟩,
     { connBuckets := setBucket connId rc.2 s.connBuckets, global := s.global })

/-! ## Framers

Byte buffers are `List Nat` (each element a byte value).  Go slice
expressions `buf[lo:hi]` panic unless `0 ≤ lo ≤ hi ≤ len(buf)`; we make
that explicit with `goSlice`.  The framer loops are modelled with
explicit fuel, one unit per loop iteration, so that the non-terminating
parameter choices are observable. -/

/-- Go's slice expression `buf[lo:hi]`: `none` models the runtime
panic `slice bounds out of range`. -/
def goSlice (buf : List Nat) (lo hi : Int) : Option (List Nat) :=
  if 0 ≤ lo ∧ lo ≤ hi ∧ hi ≤ (buf.length : Int) then
    some ((buf.drop lo.toNat).take (hi - lo).toNat)
  else none

/-- `binary.ByteOrder`: the two instances used by `LengthFieldFramer`. -/
inductive ByteOrder where
  | big
  | little
  deriving Repr, DecidableEq

/-- Read an unsigned integer from a whole byte slice in the given
order (`order.Uint16/Uint32/Uint64`, and the single-byte case). -/
def readUint : ByteOrder → List Nat → Nat
  | .big, bytes => bytes.foldl (fun acc b => acc * 256 + b) 0
  | .little, bytes => bytes.reverse.foldl (fun acc b => acc * 256 + b) 0

/-- Result of one framer invocation: the returned
`(frames, remaining)` on success, a Go runtime panic, or the error
return used for an unsupported length-field width. -/
inductive FrameResult where
  | ok (frames : List (List Nat)) (rest : List Nat)
  | goPanic
  | goError
  deriving Repr, DecidableEq

/-- `RawFramer`: the whole input is the single frame, the remainder is
always nil. -/
def rawFramer (buf : List Nat) : FrameResult := .ok [buf] []

/-- Go's `bytes.Index(buf, delim)`: index of the first occurrence of
`delim` in `buf`, `none` for `-1`.  `bytes.Index(buf, [])` is `0`. -/
def bytesIndex (delim : List Nat) : List Nat → Option Nat
  | [] => if delim.isEmpty then some 0 else none
  | b :: rest =>
    if (b :: rest).take delim.length = delim then some 0
    else (bytesIndex delim rest).map Nat.succ

/-- The loop of `DelimiterFramer(delim)`: split on each occurrence of
`delim`, dropping the delimiter; the tail with no occurrence is the
remainder.  One fuel unit per emitted frame. -/
def delimiterRun (delim : List Nat) (buf : List Nat) : Nat → Option FrameResult
  | 0 => none
  | fuel + 1 =>
    match bytesIndex delim buf with
    | none => some (.ok [] buf)
    | some idx =>
      match delimiterRun delim (buf.drop (idx + delim.length)) fuel with
      | some (.ok frames rest) => some (.ok (buf.take idx :: frames) rest)
      | other => other

/-- The loop of `FixedLengthFramer(length)`: while
`len(buf) >= length`, emit `buf[:length]` and continue with
`buf[length:]`.  A negative `length` makes `buf[:length]` panic; a zero
`length` never terminates. -/
def fixedRun (length : Int) (buf : List Nat) : Nat → Option FrameResult
  | 0 => none
  | fuel + 1 =>
    if length ≤ (buf.length : Int) then
      match goSlice buf 0 length with
      | none => some .goPanic
      | some frame =>
        match fixedRun length (buf.drop length.toNat) fuel with
        | some (.ok frames rest) => some (.ok (frame :: frames) rest)
        | other => other
    else some (.ok [] buf)

/-- The loop of
`LengthFieldFramer(lengthFieldOffset, lengthFieldSize, lengthAdjustment, initialBytesToStrip, order)`:

1. break when `len(buf) < lengthFieldOffset+lengthFieldSize`;
2. `fieldBytes := buf[lengthFieldOffset : lengthFieldOffset+lengthFieldSize]`;
3. switch on the width — `1,2,4,8` read the field, anything else is the
   `unsupported lengthFieldSize` error;
4. `frameLen += uint64(lengthAdjustment)` (wrapping `uint64` addition);
5. `frameEnd := lengthFieldOffset + lengthFieldSize + int(frameLen)`
   (`uint64` → `int` reinterpretation, then wrapping `int64` sums);
6. break when `len(buf) < frameEnd`;
7. emit `buf[initialBytesToStrip:frameEnd]`, continue with `buf[frameEnd:]`.

The frame-end computation (steps 4–5) is factored out as `lfFrameEnd`:
`frameLen := field; frameLen += uint64(lengthAdjustment)` is the
wrapping `uint64` sum, and
`frameEnd := lengthFieldOffset + lengthFieldSize + int(frameLen)` the
`uint64 → int` reinterpretation followed by wrapping `int64` sums. -/
def lfFrameEnd (o w a : Int) (order : ByteOrder) (fieldBytes : List Nat) : Int :=
  wrap64 (o + w + u64ToInt64 ((readUint order fieldBytes + toU64 a) % 2 ^ 64))

/-- The loop of `LengthFieldFramer` (see `lfFrameEnd` for steps 4–5 of
the description above). -/
def lfRun (o w a strip : Int) (order : ByteOrder) (buf : List Nat) : Nat → Option FrameResult
  | 0 => none
  | fuel + 1 =>
    if (buf.length : Int) < o + w then some (.ok [] buf)
    else
      match goSlice buf o (o + w) with
      | none => some .goPanic
      | some fieldBytes =>
        if w = 1 ∨ w = 2 ∨ w = 4 ∨ w = 8 then
          if (buf.length : Int) < lfFrameEnd o w a order fieldBytes then some (.ok [] buf)
          else
            match goSlice buf strip (lfFrameEnd o w a order fieldBytes) with
            | none => some .goPanic
            | some frame =>
              match lfRun o w a strip order
                  (buf.drop (lfFrameEnd o w a order fieldBytes).toNat) fuel with
              | some (.ok frames rest) => some (.ok (frame :: frames) rest)
              | other => other
        else some .goError

/-- The claim-side specification of the length-field framer, written
from the claim's words for the refinement comparison with `lfRun`:
read the `w`-byte length field at offset `o` in the given byte order,
add the adjustment `a`, and emit the bytes from offset `strip` to
offset `o + w + length + a` whenever that many bytes are present,
leaving fewer bytes as the remainder.  The inner `none` marks an input
outside the nominal range (a frame whose computed length `field + a`
is negative or whose packet end reaches `2^63`), where the Go code's
integer reinterpretations take over. -/
def lfClaimRun (o w strip : Nat) (a : Int) (order : ByteOrder) (buf : List Nat) :
    Nat → Option (Option (List (List Nat) × List Nat))
  | 0 => none
  | fuel + 1 =>
    if buf.length < o + w then some (some ([], buf))
    else
      let field := readUint order ((buf.drop o).take w)
      if 0 ≤ (field : Int) + a ∧ (o : Int) + w + field + a < 2 ^ 63 then
        let packet := ((o : Int) + w + field + a).toNat
        if buf.length < packet then some (some ([], buf))
        else
          match lfClaimRun o w strip a order (buf.drop packet) fuel with
          | some (some (frames, rest)) =>
            some (some ((buf.drop strip).take (packet - strip) :: frames, rest))
          | other => other
      else some none

/-- The remainder-carry iteration of the claim: starting from carry
`carry`, each chunk is processed by the framer prepended with the
previous call's remainder; `IterOk run carry chunks frames rest` holds
when the iterated calls all return `ok`, produce `frames` in total
(in order) and leave final remainder `rest`. -/
def IterOk (run : List Nat → Nat → Option FrameResult) :
    List Nat → List (List Nat) → List (List Nat) → List Nat → Prop
  | carry, [], frames, rest => frames = [] ∧ rest = carry
  | carry, c :: cs, frames, rest =>
    ∃ fuel f1 r1 f2,
      run (carry ++ c) fuel = some (.ok f1 r1) ∧
      IterOk run r1 cs f2 rest ∧ frames = f1 ++ f2

/-! ## Middleware chain and router middleware

For the execution-order claims, handlers are deep-embedded: a `lab n`
handler stands for a user handler that records its label and calls its
`next` continuation exactly once, and `terminal` stands for the closure
`func(_ Context, _ func()) { next() }` that `RouterHandler` appends to
invoke the outer `next`. -/

/-- Deep-embedded handlers for the router middleware model. -/
inductive MHandler where
  | lab (n : Nat)
  | terminal
  deriving Repr, DecidableEq

/-- An observable event of a router-middleware invocation: a user
handler ran, or the outer `next` was called. -/
inductive REvent where
  | h (n : Nat)
  | next
  deriving Repr, DecidableEq

/-- `Chain.Handler`'s `dispatch` recursion on deep-embedded handlers:
`lab n` records its event and calls `next` (dispatching the following
handler); `terminal` calls the outer `next` and does not dispatch
further. -/
def chainTrace : List MHandler → List REvent
  | [] => []
  | .lab n :: rest => .h n :: chainTrace rest
  | .terminal :: _ => [.next]

/-- `RouterGroup.Handlers`: walk from the group to the root, each time
prepending the current node's middleware
(`combined = append(current.middleware, combined...)`).  A group is
represented by its middleware lists from itself up to the root
(itself first). -/
def groupHandlers (g : List (List Nat)) : List Nat :=
  g.foldl (fun combined mw => mw ++ combined) []

/-- `Route.Handlers`: the owning group's combined middleware followed
by the route's own handlers. -/
def routeHandlers (g : List (List Nat)) (own : List Nat) : List Nat :=
  groupHandlers g ++ own

/-- The handler returned by `RouterHandler`, on one invocation.
`resolved = none` models the resolver reporting no path; otherwise the
inner option is the `Router.Match` outcome: a matched route (its
group's middleware lists and its own handlers) or no match.  The
built sub-chain is executed with the appended closure that calls the
outer `next`. -/
def routerTrace (resolved : Option (Option (List (List Nat) × List Nat)))
    (notFound : Option (List Nat)) : List REvent :=
  match resolved with
  | none => [.next]
  | some matchResult =>
    let chain : List MHandler :=
      match matchResult with
      | some gown => (routeHandlers gown.1 gown.2).map .lab
      | none =>
        match notFound with
        | some nf => nf.map .lab
        | none => []
    chainTrace (chain ++ [.terminal])

/-! ## Router state: trie, LRU cache, `Match` and `insert` -/

/-- Association-list lookup by string key. -/
def assocFind (k : String) : List (String × Nat) → Option Nat
  | [] => none
  | kv :: rest => if kv.1 = k then some kv.2 else assocFind k rest

/-- Remove the first entry with the given key. -/
def assocErase (k : String) : List (String × Nat) → List (String × Nat)
  | [] => []
  | kv :: rest => if kv.1 = k then rest else kv :: assocErase k rest

/-- `trie.Node` (pkg/trie): a node holds an atomically stored value —
`nil` when unset, otherwise the `*Route` the router inserted, here a
route id — and an atomically published children map keyed by path
segment.  A `nil`/absent map and an empty map behave alike for the
sequential semantics, so both are the empty association list. -/
inductive TrieNode where
  | mk (value : Option Nat) (children : List (String × TrieNode))

/-- `Node.Value`. -/
def TrieNode.value : TrieNode → Option Nat
  | .mk v _ => v

/-- `Node.Children` (as the current association list). -/
def TrieNode.children : TrieNode → List (String × TrieNode)
  | .mk _ ch => ch

/-- `Node.Child`: look the segment up in the children map. -/
def trieChild (part : String) : List (String × TrieNode) → Option TrieNode
  | [] => none
  | kv :: rest => if kv.1 = part then some kv.2 else trieChild part rest

/-- The copy-on-write republication of a children map with one child
replaced or added (the `newMap[part] = newChild` + CAS step of
`Trie.Insert`, sequentially). -/
def trieSetChild (part : String) (c : TrieNode) :
    List (String × TrieNode) → List (String × TrieNode)
  | [] => [(part, c)]
  | kv :: rest => if kv.1 = part then (part, c) :: rest else kv :: trieSetChild part c rest

/-- `Trie.Query(parts...)`: walk the children maps segment by segment;
a missing child is `(nil, false)`, and at the final node the result is
`(v, v != nil)` — so a hit is exactly a node with a non-nil value,
which the `Option` carries. -/
def trieQuery : List String → TrieNode → Option Nat
  | [], n => n.value
  | p :: ps, n =>
    match trieChild p n.children with
    | none => none
    | some c => trieQuery ps c

/-- `Trie.Insert(value, parts...)`: walk the segments, creating an
empty node wherever a child is missing (sequentially, the
copy-on-write CAS loop always succeeds first try), and store the value
at the final node. -/
def trieInsert : List String → Nat → TrieNode → TrieNode
  | [], rid, n => .mk (some rid) n.children
  | p :: ps, rid, n =>
    .mk n.value
      (trieSetChild p
        (trieInsert ps rid ((trieChild p n.children).getD (.mk none []))) n.children)

/-- The router's `lruCache`: `capacity`, and the recency list with the
most recently used entry at the head. -/
structure LruState where
  capacity : Int
  entries : List (String × Nat)
  deriving Repr, DecidableEq

/-- `lruCache.Get`: on a hit, move the entry to the front and return
its value; a miss changes nothing. -/
def lruGet (c : LruState) (k : String) : Option Nat × LruState :=
  match assocFind k c.entries with
  | some v => (some v, { c with entries := (k, v) :: assocErase k c.entries })
  | none => (none, c)

/-- `lruCache.Add`: a zero capacity ignores the call; an existing key
is moved to the front with the new value; otherwise push the entry at
the front and, when the length now exceeds the capacity, evict the
back entry. -/
def lruAdd (c : LruState) (k : String) (v : Nat) : LruState :=
  if c.capacity = 0 then c
  else
    match assocFind k c.entries with
    | some _ => { c with entries := (k, v) :: assocErase k c.entries }
    | none =>
      let es := (k, v) :: c.entries
      if c.capacity < (es.length : Int) then { c with entries := es.dropLast }
      else { c with entries := es }

/-- The router's mutable state for the cache-transparency claim: the
trie and the optional LRU cache (`NewRouter` leaves the cache unset). -/
structure RouterState where
  trie : TrieNode
  cache : Option LruState

/-- The state of a fresh `NewRouter`. -/
def RouterState.initial : RouterState := { trie := .mk none [], cache := none }

/-- The entries currently in the router's LRU cache. -/
def RouterState.cacheEntries (s : RouterState) : List (String × Nat) :=
  (s.cache.map LruState.entries).getD []

/-- `Router.Match(path)`, with `split` standing for `SplitPath`:
consult the cache first; on a hit return the cached route.  Otherwise
query the trie; on a trie hit, record the result in the cache (when
one is installed) and return it; a miss returns `(nil, false)` and
leaves the cache untouched. -/
def routerMatch (split : String → List String) (s : RouterState) (path : String) :
    Option Nat × RouterState :=
  let afterGet :=
    match s.cache with
    | some c =>
      let g := lruGet c path
      (g.1, { s with cache := some g.2 })
    | none => (none, s)
  match afterGet.1 with
  | some v => (some v, afterGet.2)
  | none =>
    let s1 := afterGet.2
    match trieQuery (split path) s1.trie with
    | none => (none, s1)
    | some v =>
      (some v, { s1 with cache := s1.cache.map fun c => lruAdd c path v })

/-- `Router.insert`: store the route in the trie, then clear the LRU
cache when one is installed. -/
def routerInsert (split : String → List String) (s : RouterState)
    (path : String) (rid : Nat) : RouterState :=
  { trie := trieInsert (split path) rid s.trie,
    cache := s.cache.map fun c => { c with entries := [] } }

/-- The operations that drive a router's state.  `handle` carries
whether the caller passed any handlers — `RouterGroup.Handle` returns
without inserting when given none.  `setLru` is `Router.Lru`, which
(for any argument, the non-positive branch falling through) installs a
fresh cache of the given capacity. -/
inductive ROp where
  | handle (path : String) (rid : Nat) (hasHandlers : Bool)
  | doMatch (path : String)
  | setLru (size : Int)

/-- Apply one router operation. -/
def RouterState.exec (split : String → List String) (s : RouterState) : ROp → RouterState
  | .handle path rid hasHandlers =>
    if hasHandlers then routerInsert split s path rid else s
  | .doMatch path => (routerMatch split s path).2
  | .setLru size => { s with cache := some { capacity := size, entries := [] } }

/-- Run a sequence of router operations from a state. -/
def RouterState.runOps (split : String → List String) (s : RouterState) :
    List ROp → RouterState
  | [] => s
  | op :: ops => (s.exec split op).runOps split ops

/-- The cache-consistency invariant: every cached pair is exactly what
the trie currently answers for its path. -/
def CacheConsistent (split : String → List String) (s : RouterState) : Prop :=
  ∀ kv ∈ s.cacheEntries, trieQuery (split kv.1) s.trie = some kv.2

/-! ## Theorems -/

/-! ### C1: the idle check in `Conn.mainLoop` -/

/-- C1 (code evaluated at the failing behaviour): for every
last-activity value actually stored by `Conn.Touch` (any nanosecond
timestamp of at least `2^34` ns ≈ 17 s after the Unix epoch), every
current time representable in an `int64`, and every positive idle
threshold, the idle branch of `Conn.mainLoop` never fires — because it
re-reads the nanosecond timestamp as seconds, the computed
`time.Since` saturates negative, so the comparison with the idle
threshold is always false.  The claim instead requires the hook to
fire whenever the true elapsed time exceeds the threshold. -/
theorem mainLoop_idle_never_fires (lastStored nowNs idleTimeout : Int)
    (hlast : 2 ^ 34 ≤ lastStored) (hnow : nowNs ≤ 2 ^ 63)
    (hpos : 0 < idleTimeout) :
    mainLoopIdleFires lastStored nowNs idleTimeout = false := by
  unfold mainLoopIdleFires mainLoopIdleElapsed goTimeSub int64Min int64Max
  rw [decide_eq_false_iff_not, not_lt]
  have hp : (10 : Int) ^ 9 = 1000000000 := by norm_num
  have h34 : (2 : Int) ^ 34 = 17179869184 := by norm_num
  have h63 : (2 : Int) ^ 63 = 9223372036854775808 := by norm_num
  have hneg : nowNs - lastStored * 10 ^ 9 < 0 := by nlinarith
  refine max_le (by omega) (le_trans (min_le_right _ _) (by omega))

/-- C1 witness: a concrete instance — activity touched at Unix time
`1.7·10^18` ns, checked 10 seconds later against a 1-second idle
threshold: the specified check fires, the code's does not. -/
theorem mainLoop_idle_never_fires_witness :
    mainLoopIdleFires 1700000000000000000 1700000010000000000 1000000000 = false ∧
    specIdleFires 1700000000000000000 1700000010000000000 1000000000 = true := by
  constructor
  · exact mainLoop_idle_never_fires 1700000000000000000 1700000010000000000 1000000000
      (by norm_num) (by norm_num) (by norm_num)
  · decide

/-! ### C2: the UDP server's idle threshold -/

/-- C2 (code evaluated at the failing input): `Server.Listen`'s
threshold selection is inverted.  A configured idle timeout of 10 s is
replaced by the 5-minute default instead of being kept, and an unset
(zero) timeout stays zero — making the reaper ticker period zero,
which panics `time.NewTicker` — instead of defaulting to 5 minutes as
the claim (and the config's own documentation) states. -/
theorem listen_idleTimeout_selection_inverted :
    listenIdleTimeout (10 * 10 ^ 9) = 300 * 10 ^ 9 ∧
    listenIdleTimeout (10 * 10 ^ 9) ≠ 10 * 10 ^ 9 ∧
    listenIdleTimeout 0 = 0 ∧
    reaperTickInterval (listenIdleTimeout 0) = 0 := by
  refine ⟨?_, by decide, by decide, by decide⟩
  unfold listenIdleTimeout
  norm_num

/-! ### C10: the `active` flag is never reset -/

/-- Any lifecycle step preserves a set `active` flag. -/
theorem ConnState.step_active_preserved (s : ConnState) (e : ConnEvent)
    (h : s.active = true) : (s.step e).active = true := by
  cases e <;> simp only [ConnState.step] <;> (try split) <;> simp_all

/-- Any run of lifecycle events preserves a set `active` flag. -/
theorem ConnState.run_active_preserved :
    ∀ (es : List ConnEvent) (s : ConnState), s.active = true →
      (s.run es).active = true
  | [], _, h => h
  | e :: es, s, h =>
    ConnState.run_active_preserved es (s.step e) (s.step_active_preserved e h)

/-- Every reachable state that is started is active: only `Conn.Start`
sets `started`, and it sets `active` at the same time. -/
theorem ConnState.run_started_imp_active :
    ∀ (es : List ConnEvent) (s : ConnState),
      (s.started = true → s.active = true) →
      ((s.run es).started = true → (s.run es).active = true)
  | [], _, h => h
  | e :: es, s, h => by
    refine ConnState.run_started_imp_active es (s.step e) ?_
    cases e <;> simp only [ConnState.step] <;> (try split) <;> simp_all

/-- Running an appended event list composes. -/
theorem ConnState.run_append (s : ConnState) :
    ∀ (xs ys : List ConnEvent), s.run (xs ++ ys) = (s.run xs).run ys := by
  intro xs
  induction xs generalizing s with
  | nil => intro ys; rfl
  | cons x xs ih => intro ys; exact ih (s.step x) ys

/-- C10: in every run of lifecycle events that contains a `Start`, the
connection reports `IsActive() = true` in every subsequent state —
`Close` included — because the flag is stored `true` in `Start` and no
code path ever stores `false`; consequently `Send`'s closed error on a
closed connection can only come from the canceled-scope branch, never
from the activity check. -/
theorem conn_active_after_start (pre evs : List ConnEvent) :
    (ConnState.init.run (pre ++ .start :: evs)).isActive = true ∧
    (ConnState.init.run (pre ++ .start :: evs)).send ≠ .errInactive := by
  have hrun : ConnState.init.run (pre ++ .start :: evs)
      = (((ConnState.init.run pre).step .start).run evs) := by
    rw [ConnState.run_append]; rfl
  have hstart : ((ConnState.init.run pre).step .start).active = true := by
    have hinv := ConnState.run_started_imp_active pre ConnState.init
      (by intro h; simp [ConnState.init] at h)
    simp only [ConnState.step]
    split
    · exact hinv (by assumption)
    · rfl
  have hact : (ConnState.init.run (pre ++ .start :: evs)).active = true := by
    rw [hrun]; exact ConnState.run_active_preserved evs _ hstart
  refine ⟨hact, ?_⟩
  simp only [ConnState.send, ConnState.isActive, hact, not_true, if_false,
    ite_false, if_neg, not_false_iff]
  norm_num
  split <;> simp

/-! ### C6: the rate-limit middleware gate -/

/-- C6: on each message, the rate-limit middleware calls `next` if and
only if the per-connection bucket (looked up by connection id, created
lazily with `NewAtomicBucket(connRate, connBurst)` on the connection's
first message) grants a token and the shared global bucket grants a
token; whenever either refuses, the middleware invokes the
user-supplied `limit` handler exactly when one is configured, and does
not call `next` itself.  The updated per-connection bucket is stored
back under the connection's id. -/
theorem rateLimit_next_iff_both_grant (connRate connBurst : Int)
    (hasLimit : Bool) (s : RLState) (connId : String) (now : Int) :
    ((rateLimitStep connRate connBurst hasLimit s connId now).1.nextCalled = true ↔
      (((getBucket connId s.connBuckets).getD
          (NewAtomicBucket connRate connBurst now)).allow now).1 = true ∧
      (s.global.allow now).1 = true) ∧
    ((rateLimitStep connRate connBurst hasLimit s connId now).1.nextCalled = false →
      (rateLimitStep connRate connBurst hasLimit s connId now).1.limitCalled = hasLimit) ∧
    ((rateLimitStep connRate connBurst hasLimit s connId now).1.nextCalled = true →
      (rateLimitStep connRate connBurst hasLimit s connId now).1.limitCalled = false) ∧
    (rateLimitStep connRate connBurst hasLimit s connId now).2.connBuckets =
      setBucket connId
        (((getBucket connId s.connBuckets).getD
            (NewAtomicBucket connRate connBurst now)).allow now).2 s.connBuckets := by
  unfold rateLimitStep
  rcases hc : (((getBucket connId s.connBuckets).getD
      (NewAtomicBucket connRate connBurst now)).allow now) with ⟨okc, tb'⟩
  rcases hg : (s.global.allow now) with ⟨okg, g'⟩
  cases okc <;> cases okg <;> simp [hc, hg]

/-! ### C7: router middleware dispatch order -/

/-- Dispatching a block of label handlers records each label in order
and continues with the rest of the chain. -/
theorem chainTrace_append_labs (hs : List Nat) (rest : List MHandler) :
    chainTrace (hs.map .lab ++ rest) = hs.map .h ++ chainTrace rest := by
  induction hs with
  | nil => rfl
  | cons h hs ih => simp [chainTrace, ih]

/-- The group-handler fold with an arbitrary accumulator. -/
theorem groupHandlers_foldl (g : List (List Nat)) :
    ∀ init : List Nat,
      g.foldl (fun combined mw => mw ++ combined) init = g.reverse.flatten ++ init := by
  induction g with
  | nil => intro init; simp
  | cons mw rest ih => intro init; simp [ih]

/-- `RouterGroup.Handlers` computes the middleware lists from the root
down to the group, outer first. -/
theorem groupHandlers_eq (g : List (List Nat)) :
    groupHandlers g = g.reverse.flatten := by
  simpa using groupHandlers_foldl g []

/-- C7: the router middleware's executed sequence — directly `next`
when the resolver reports no path; the owning group's middleware from
root to group (outer first) then the route's own handlers then the
outer `next` on a match; the `NotFound` chain then `next` when
unmatched with one configured; only `next` when unmatched without. -/
theorem router_dispatch_order (g : List (List Nat)) (own nfl : List Nat)
    (nf : Option (List Nat)) :
    routerTrace none nf = [.next] ∧
    routerTrace (some (some (g, own))) nf =
      ((g.reverse.flatten ++ own).map REvent.h) ++ [.next] ∧
    routerTrace (some none) (some nfl) = nfl.map REvent.h ++ [.next] ∧
    routerTrace (some none) none = [.next] := by
  refine ⟨rfl, ?_, ?_, rfl⟩
  · show chainTrace ((routeHandlers g own).map .lab ++ [.terminal]) = _
    rw [chainTrace_append_labs]
    simp [routeHandlers, groupHandlers_eq, chainTrace]
  · show chainTrace (nfl.map .lab ++ [.terminal]) = _
    rw [chainTrace_append_labs]
    simp [chainTrace]

/-! ### C8: `Router.Match` cache transparency -/

/-- A successful association lookup is a membership. -/
theorem assocFind_mem {k : String} {v : Nat} :
    ∀ {l : List (String × Nat)}, assocFind k l = some v → (k, v) ∈ l := by
  intro l
  induction l with
  | nil => intro h; simp [assocFind] at h
  | cons kv rest ih =>
    obtain ⟨a, b⟩ := kv
    intro h
    simp only [assocFind] at h
    split at h
    · rename_i hk
      injection h with h2
      have hk2 : a = k := hk
      subst hk2; subst h2
      exact List.mem_cons_self _ _
    · exact List.mem_cons_of_mem _ (ih h)

/-- Erasing a key keeps a sublist of the entries. -/
theorem assocErase_subset (k : String) :
    ∀ (l : List (String × Nat)), assocErase k l ⊆ l := by
  intro l
  induction l with
  | nil => simp [assocErase]
  | cons kv rest ih =>
    by_cases hk : kv.1 = k
    · simp only [assocErase, hk, if_pos]
      exact List.subset_cons_self _ _
    · simp only [assocErase, hk, if_neg, not_false_iff]
      exact List.cons_subset_cons _ ih

/-- A cache `Get` introduces no entry that was not already present. -/
theorem lruGet_entries_subset (c : LruState) (k : String) :
    (lruGet c k).2.entries ⊆ c.entries := by
  unfold lruGet
  cases hf : assocFind k c.entries with
  | none => simp
  | some v =>
    simp only
    intro kv hkv
    rcases List.mem_cons.mp hkv with h | h
    · subst h; exact assocFind_mem hf
    · exact assocErase_subset k c.entries h

/-- A cache `Add` introduces at most the added entry. -/
theorem lruAdd_entries_subset (c : LruState) (k : String) (v : Nat) :
    ∀ kv ∈ (lruAdd c k v).entries, kv = (k, v) ∨ kv ∈ c.entries := by
  unfold lruAdd
  intro kv hkv
  split at hkv
  · exact Or.inr hkv
  · split at hkv
    · rcases List.mem_cons.mp hkv with h | h
      · exact Or.inl h
      · exact Or.inr (assocErase_subset k c.entries h)
    · simp only at hkv
      split at hkv
      · rcases List.mem_cons.mp (List.mem_of_mem_dropLast hkv) with h | h
        · exact Or.inl h
        · exact Or.inr h
      · rcases List.mem_cons.mp hkv with h | h
        · exact Or.inl h
        · exact Or.inr h

/-- Under the invariant, `Router.Match` answers exactly what the trie
answers, cache or no cache. -/
theorem routerMatch_eq_of_consistent (split : String → List String)
    (s : RouterState) (path : String) (hinv : CacheConsistent split s) :
    (routerMatch split s path).1 = trieQuery (split path) s.trie := by
  unfold routerMatch
  cases hc : s.cache with
  | none =>
    simp only
    cases trieQuery (split path) s.trie <;> simp
  | some c =>
    simp only
    cases hg : (lruGet c path).1 with
    | some v =>
      have hmem : (path, v) ∈ c.entries := by
        unfold lruGet at hg
        cases hf : assocFind path c.entries with
        | none => simp [hf] at hg
        | some w =>
          simp only [hf] at hg
          cases hg
          exact assocFind_mem hf
      have := hinv (path, v) (by simp [RouterState.cacheEntries, hc]; exact hmem)
      simp [this]
    | none =>
      simp only
      cases trieQuery (split path) s.trie <;> simp

/-- `Router.Match` preserves the cache-consistency invariant: a hit
only reorders existing entries, and the entry added on a trie hit is
the trie's own answer. -/
theorem routerMatch_preserves (split : String → List String)
    (s : RouterState) (path : String) (hinv : CacheConsistent split s) :
    CacheConsistent split (routerMatch split s path).2 := by
  unfold routerMatch
  cases hc : s.cache with
  | none =>
    simp only
    cases trieQuery (split path) s.trie with
    | none => exact hinv
    | some v =>
      intro kv hkv
      simp [RouterState.cacheEntries, hc] at hkv
  | some c =>
    simp only
    cases hg : (lruGet c path).1 with
    | some v =>
      intro kv hkv
      simp only [RouterState.cacheEntries, Option.map_some, Option.getD_some] at hkv
      have : kv ∈ c.entries := lruGet_entries_subset c path hkv
      exact hinv kv (by simp [RouterState.cacheEntries, hc]; exact this)
    | none =>
      cases ht : trieQuery (split path) s.trie with
      | none =>
        intro kv hkv
        have heq : (lruGet c path).2.entries ⊆ c.entries := lruGet_entries_subset c path
        simp [RouterState.cacheEntries] at hkv
        exact hinv kv (by simp [RouterState.cacheEntries, hc]; exact heq hkv)
      | some v =>
        intro kv hkv
        simp [RouterState.cacheEntries] at hkv
        rcases lruAdd_entries_subset _ path v kv hkv with h | h
        · subst h; simpa using ht
        · have : kv ∈ c.entries := lruGet_entries_subset c path h
          exact hinv kv (by simp [RouterState.cacheEntries, hc]; exact this)

/-- Every router operation preserves cache consistency: `Match` by the
previous lemma, an insertion because it clears the cache, `Lru`
because it installs an empty cache. -/
theorem exec_preserves (split : String → List String) (s : RouterState)
    (op : ROp) (hinv : CacheConsistent split s) :
    CacheConsistent split (s.exec split op) := by
  cases op with
  | handle path rid hasHandlers =>
    by_cases hh : hasHandlers = true
    · simp only [RouterState.exec, hh, if_pos]
      intro kv hkv
      simp only [routerInsert, RouterState.cacheEntries] at hkv
      rcases hc2 : s.cache with _ | c <;> simp [hc2] at hkv
    · simp only [RouterState.exec, hh]
      simpa using hinv
  | doMatch path => exact routerMatch_preserves split s path hinv
  | setLru size =>
    intro kv hkv
    simp [RouterState.exec, RouterState.cacheEntries] at hkv

/-- Cache consistency holds at every state reachable from a fresh
router. -/
theorem runOps_consistent (split : String → List String) :
    ∀ (ops : List ROp) (s : RouterState), CacheConsistent split s →
      CacheConsistent split (s.runOps split ops)
  | [], _, h => h
  | op :: ops, s, h =>
    runOps_consistent split ops (s.exec split op) (exec_preserves split s op h)

/-- C8: after any sequence of router operations starting from a fresh
router, `Match(path)` returns exactly what a direct trie query
returns — the LRU cache, absent, empty, or populated by any prior
`Match` calls, is transparent — and any route insertion through
`Handle`/`insert` leaves the cache with no entries. -/
theorem router_match_cache_transparent (split : String → List String)
    (ops : List ROp) (path p2 : String) (rid : Nat) :
    (routerMatch split (RouterState.initial.runOps split ops) path).1 =
      trieQuery (split path) (RouterState.initial.runOps split ops).trie ∧
    ((RouterState.initial.runOps split ops).exec split
        (.handle p2 rid true)).cacheEntries = [] := by
  have hinv : CacheConsistent split (RouterState.initial.runOps split ops) :=
    runOps_consistent split ops RouterState.initial
      (by intro kv hkv; simp [RouterState.cacheEntries, RouterState.initial] at hkv)
  refine ⟨routerMatch_eq_of_consistent split _ path hinv, ?_⟩
  simp only [RouterState.exec, if_pos, routerInsert, RouterState.cacheEntries]
  cases (RouterState.initial.runOps split ops).cache <;> simp

/-! ### C5: the token-bucket admission bound -/

/-- Euclidean division is superadditive in the numerator. -/
theorem ediv_add_ediv_le (x y c : Int) (hc : 0 < c) :
    x / c + y / c ≤ (x + y) / c := by
  rw [Int.le_ediv_iff_mul_le hc, add_mul]
  have h1 := Int.ediv_mul_le x (ne_of_gt hc)
  have h2 := Int.ediv_mul_le y (ne_of_gt hc)
  omega

/-- The refill phase preserves the potential invariant. -/
theorem bucket_refill_inv (rate burst tc t0 d n now : Int) (b : Bucket)
    (hr : 0 ≤ rate) (hb : 0 ≤ burst)
    (hn2 : now ≤ t0 + d)
    (hinv : BucketBoundInv rate burst tc t0 d n b) :
    BucketBoundInv rate burst tc t0 d n (b.refill now) := by
  obtain ⟨hcap, hrate, htok, hlast1, hlast2, hsum⟩ := hinv
  by_cases he : 0 < now - b.lastRefill
  · by_cases hp : 0 < Int.tdiv ((now - b.lastRefill) * b.refillRate) (10 ^ 9)
    · have hrefill : b.refill now =
          { b with
            tokens := min (b.tokens + Int.tdiv ((now - b.lastRefill) * b.refillRate) (10 ^ 9))
              b.capacity,
            lastRefill := now } := by
        simp only [Bucket.refill]
        rw [if_pos he, if_pos hp]
      rw [hrefill]
      have hc9 : (0 : Int) < 10 ^ 9 := by norm_num
      have htdiv : Int.tdiv ((now - b.lastRefill) * b.refillRate) (10 ^ 9) =
          ((now - b.lastRefill) * b.refillRate) / 10 ^ 9 := by
        refine Int.tdiv_eq_ediv ?_ (by norm_num)
        have h0 : 0 ≤ b.refillRate := hrate ▸ hr
        have h1 : (0 : Int) ≤ now - b.lastRefill := le_of_lt he
        positivity
      have hsuper : rate * (b.lastRefill - tc) / 10 ^ 9 +
          ((now - b.lastRefill) * b.refillRate) / 10 ^ 9 ≤
          rate * (now - tc) / 10 ^ 9 := by
        have h := ediv_add_ediv_le (rate * (b.lastRefill - tc))
          ((now - b.lastRefill) * b.refillRate) (10 ^ 9) hc9
        have heq : rate * (b.lastRefill - tc) + (now - b.lastRefill) * b.refillRate =
            rate * (now - tc) := by rw [hrate]; ring
        rwa [heq] at h
      rw [htdiv] at hp
      refine ⟨hcap, hrate, ?_, by simp only; omega, Or.inr hn2, ?_⟩
      · simp only [le_min_iff, htdiv]
        omega
      · simp only [htdiv]
        rcases min_cases (b.tokens + (now - b.lastRefill) * b.refillRate / 10 ^ 9) b.capacity
          with ⟨hmin, hcase⟩ | ⟨hmin, hcase⟩ <;> rw [hmin] <;> omega
    · have hrefill : b.refill now = b := by
        simp only [Bucket.refill]
        rw [if_pos he, if_neg hp]
      rw [hrefill]
      exact ⟨hcap, hrate, htok, hlast1, hlast2, hsum⟩
  · have hrefill : b.refill now = b := by
      simp only [Bucket.refill]
      rw [if_neg he]
    rw [hrefill]
    exact ⟨hcap, hrate, htok, hlast1, hlast2, hsum⟩

/-- One full `Allow` call preserves the invariant, counting the
admission. -/
theorem bucket_allow_inv (rate burst tc t0 d n now : Int) (b : Bucket)
    (hr : 0 ≤ rate) (hb : 0 ≤ burst)
    (hn2 : now ≤ t0 + d)
    (hinv : BucketBoundInv rate burst tc t0 d n b) :
    BucketBoundInv rate burst tc t0 d
      (n + if (b.allow now).1 then 1 else 0) (b.allow now).2 := by
  have href := bucket_refill_inv rate burst tc t0 d n now b hr hb hn2 hinv
  obtain ⟨hcap, hrate, htok, hlast1, hlast2, hsum⟩ := href
  by_cases hzero : (b.refill now).tokens ≤ 0
  · have h1 : (b.allow now).1 = false := by
      simp only [Bucket.allow]
      rw [if_pos hzero]
    have h2 : (b.allow now).2 =
        { capacity := (b.refill now).capacity,
          tokens := (b.refill now).tokens,
          refillRate := (b.refill now).refillRate,
          lastRefill := (b.refill now).lastRefill,
          lastAccess := now } := by
      simp only [Bucket.allow]
      rw [if_pos hzero]
    rw [h1, h2]
    refine ⟨hcap, hrate, htok, hlast1, hlast2, ?_⟩
    show n + (if false = true then 1 else 0) + (b.refill now).tokens ≤
      burst + rate * ((b.refill now).lastRefill - tc) / 10 ^ 9
    rw [if_neg (by decide)]
    omega
  · have h1 : (b.allow now).1 = true := by
      simp only [Bucket.allow]
      rw [if_neg hzero]
    have h2 : (b.allow now).2 =
        { capacity := (b.refill now).capacity,
          tokens := (b.refill now).tokens - 1,
          refillRate := (b.refill now).refillRate,
          lastRefill := (b.refill now).lastRefill,
          lastAccess := now } := by
      simp only [Bucket.allow]
      rw [if_neg hzero]
    rw [h1, h2]
    refine ⟨hcap, hrate, ?_, hlast1, hlast2, ?_⟩
    · show (0 : Int) ≤ (b.refill now).tokens - 1
      omega
    · show n + (if true = true then 1 else 0) + ((b.refill now).tokens - 1) ≤
        burst + rate * ((b.refill now).lastRefill - tc) / 10 ^ 9
      rw [if_pos rfl]
      omega

/-- Running a timestamp sequence inside the window preserves the
invariant, accumulating the admitted count. -/
theorem bucket_run_inv (rate burst tc t0 d : Int)
    (hr : 0 ≤ rate) (hb : 0 ≤ burst) :
    ∀ (ts : List Int) (n : Int) (b : Bucket),
      (∀ t ∈ ts, t0 ≤ t ∧ t ≤ t0 + d) →
      BucketBoundInv rate burst tc t0 d n b →
      BucketBoundInv rate burst tc t0 d (n + ((b.runAllow ts).1 : Int))
        (b.runAllow ts).2
  | [], n, b, _, hinv => by simpa [Bucket.runAllow] using hinv
  | t :: ts, n, b, hts, hinv => by
    have hstep := bucket_allow_inv rate burst tc t0 d n t b hr hb
      (hts t (List.mem_cons_self t ts)).2 hinv
    have hrest := bucket_run_inv rate burst tc t0 d hr hb ts
      (n + if (b.allow t).1 then 1 else 0) (b.allow t).2
      (fun u hu => hts u (List.mem_cons_of_mem t hu)) hstep
    have harith :
        n + (((b.runAllow (t :: ts)).1 : Nat) : Int) =
        n + (if (b.allow t).1 then 1 else 0) +
          ((((b.allow t).2.runAllow ts).1 : Nat) : Int) := by
      simp only [Bucket.runAllow]
      split_ifs <;> push_cast <;> ring
    have hsnd : (b.runAllow (t :: ts)).2 = ((b.allow t).2.runAllow ts).2 := by
      simp [Bucket.runAllow]
    rw [harith, hsnd]
    exact hrest

/-- C5 (amended): for a token bucket with nonnegative rate `r` and
burst `b` whose creation time `tc` lies inside the observation window
`[t0, t0 + d]`, any sequence of `Allow` calls whose timestamps all lie
within the window admits at most `b + (r·d)/1e9` calls (the refill
adds `elapsed·r/1e9` tokens, truncated, capped at `b`; each admission
consumes one token).  A bucket created before the window can exceed
this bound by pre-window credit, as the counterexample shows. -/
theorem bucket_admission_bound (rate burst tc t0 d : Int) (ts : List Int)
    (hr : 0 ≤ rate) (hb : 0 ≤ burst) (htc : t0 ≤ tc) (hd : 0 ≤ d)
    (hts : ∀ t ∈ ts, t0 ≤ t ∧ t ≤ t0 + d) :
    ((((NewAtomicBucket rate burst tc).runAllow ts).1 : Nat) : Int) ≤
      burst + Int.tdiv (rate * d) (10 ^ 9) := by
  have h0 : BucketBoundInv rate burst tc t0 d 0 (NewAtomicBucket rate burst tc) := by
    refine ⟨rfl, rfl, hb, le_refl _, Or.inl rfl, ?_⟩
    simp [NewAtomicBucket]
  have hfin := bucket_run_inv rate burst tc t0 d hr hb ts 0
    (NewAtomicBucket rate burst tc) hts h0
  obtain ⟨_, _, htok, hlast1, hlast2, hsum⟩ := hfin
  have htdiv : Int.tdiv (rate * d) (10 ^ 9) = rate * d / 10 ^ 9 :=
    Int.tdiv_eq_ediv (by positivity) (by norm_num)
  rw [htdiv]
  rcases hlast2 with heq | hle
  · rw [heq] at hsum
    simp only [sub_self, mul_zero] at hsum
    have hz : (0 : Int) / 10 ^ 9 = 0 := by norm_num
    rw [hz] at hsum
    have hnn : 0 ≤ rate * d / 10 ^ 9 :=
      Int.ediv_nonneg (by positivity) (by norm_num)
    omega
  · have hmul : rate * (((NewAtomicBucket rate burst tc).runAllow ts).2.lastRefill - tc) ≤
        rate * d := by
      have : ((NewAtomicBucket rate burst tc).runAllow ts).2.lastRefill - tc ≤ d := by omega
      exact mul_le_mul_of_nonneg_left this hr
    have hdivle := Int.ediv_le_ediv (by norm_num : (0 : Int) < 10 ^ 9) hmul
    omega

/-- C5 witness: at rate 10, burst 1, a bucket created at the window
start `t0 = 0` with one call at 0.5 s inside a 1-second window is
bounded by `1 + 10`. -/
theorem bucket_admission_bound_witness :
    ((((NewAtomicBucket 10 1 0).runAllow [500000000]).1 : Nat) : Int) ≤
      1 + Int.tdiv (10 * 10 ^ 9) (10 ^ 9) :=
  bucket_admission_bound 10 1 0 0 (10 ^ 9) [500000000]
    (by norm_num) (by norm_num) (le_refl 0) (by positivity)
    (by intro t ht; simp at ht; omega)

/-- C5 counterexample: a bucket created at time 0 (before the window),
with rate 10 and burst 1, admits 2 calls at times 0.05 s and 0.14 s —
both inside the window `[5·10^7, 5·10^7 + 9·10^7]` — although the
claim's bound is `1 + ⌊10 · 0.09⌋ = 1`: the first call leaves the
pre-window elapsed credit unconsumed (the truncated refill is 0, so
`lastRefill` is not advanced), and the second call cashes it in. -/
theorem bucket_admission_bound_counterexample :
    (((NewAtomicBucket 10 1 0).runAllow [50000000, 140000000]).1 : Nat) = 2 ∧
    (1 : Int) + Int.tdiv (10 * 90000000) (10 ^ 9) = 1 ∧
    (∀ t ∈ [(50000000 : Int), 140000000],
      50000000 ≤ t ∧ t ≤ 50000000 + 90000000) ∧
    ¬ ((((NewAtomicBucket 10 1 0).runAllow [50000000, 140000000]).1 : Nat) : Int) ≤
      (1 : Int) + Int.tdiv (10 * 90000000) (10 ^ 9) := by
  refine ⟨by decide, by decide, by decide, by decide⟩

/-! ### Framer infrastructure lemmas -/

/-- In-range slice expressions succeed and compute the take/drop
window. -/
theorem goSlice_eq_some {buf : List Nat} {lo hi : Int}
    (h0 : 0 ≤ lo) (h1 : lo ≤ hi) (h2 : hi ≤ (buf.length : Int)) :
    goSlice buf lo hi = some ((buf.drop lo.toNat).take (hi - lo).toNat) := by
  simp [goSlice, h0, h1, h2]

/-- A slice that lies inside the first list ignores an appended
tail. -/
theorem goSlice_append {buf b2 : List Nat} {lo hi : Int}
    (h0 : 0 ≤ lo) (h1 : lo ≤ hi) (h2 : hi ≤ (buf.length : Int)) :
    goSlice (buf ++ b2) lo hi = goSlice buf lo hi := by
  have h2' : hi ≤ ((buf ++ b2).length : Int) := by
    simp only [List.length_append]
    push_cast
    omega
  rw [goSlice_eq_some h0 h1 h2, goSlice_eq_some h0 h1 h2']
  have hd : (buf ++ b2).drop lo.toNat = buf.drop lo.toNat ++ b2 :=
    List.drop_append_of_le_length (by omega)
  rw [hd]
  have ht : (buf.drop lo.toNat ++ b2).take (hi - lo).toNat =
      (buf.drop lo.toNat).take (hi - lo).toNat := by
    refine List.take_append_of_le_length ?_
    simp only [List.length_drop]
    omega
  rw [ht]

/-- Slicing out of range fails. -/
theorem goSlice_eq_none {buf : List Nat} {lo hi : Int}
    (h : ¬ (0 ≤ lo ∧ lo ≤ hi ∧ hi ≤ (buf.length : Int))) :
    goSlice buf lo hi = none := by
  simp [goSlice, h]

/-! ### `FixedLengthFramer` lemmas -/

/-- More fuel never changes a settled `fixedRun` result. -/
theorem fixedRun_mono (len : Int) :
    ∀ (fuel k : Nat) (buf : List Nat) (r : FrameResult),
      fixedRun len buf fuel = some r → fixedRun len buf (fuel + k) = some r := by
  intro fuel
  induction fuel with
  | zero => intro k buf r h; simp [fixedRun] at h
  | succ n ih =>
    intro k buf r h
    rw [Nat.succ_add, fixedRun]
    rw [fixedRun] at h
    by_cases hlen : len ≤ (buf.length : Int)
    · rw [if_pos hlen] at h ⊢
      rcases hsl : goSlice buf 0 len with _ | frame
      · rw [hsl] at h
        exact h
      · rw [hsl] at h
        simp only at h ⊢
        rcases hrec : fixedRun len (buf.drop len.toNat) n with _ | fr
        · rw [hrec] at h
          simp at h
        · rw [hrec] at h
          rw [ih k _ fr hrec]
          exact h
    · rw [if_neg hlen] at h ⊢
      exact h

/-- A `fixedRun` result's remainder is inert: running the framer on it
alone immediately stops with it unchanged. -/
theorem fixedRun_stops (len : Int) :
    ∀ (fuel : Nat) (buf : List Nat) (F : List (List Nat)) (r : List Nat),
      fixedRun len buf fuel = some (.ok F r) →
      fixedRun len r 1 = some (.ok [] r) := by
  intro fuel
  induction fuel with
  | zero => intro buf F r h; simp [fixedRun] at h
  | succ n ih =>
    intro buf F r h
    rw [fixedRun] at h
    by_cases hlen : len ≤ (buf.length : Int)
    · rw [if_pos hlen] at h
      rcases hsl : goSlice buf 0 len with _ | frame
      · rw [hsl] at h
        simp at h
      · rw [hsl] at h
        simp only at h
        rcases hrec : fixedRun len (buf.drop len.toNat) n with _ | fr
        · rw [hrec] at h
          simp at h
        · rw [hrec] at h
          cases fr with
          | ok F' r' =>
            simp only [Option.some.injEq, FrameResult.ok.injEq] at h
            obtain ⟨hF, hr⟩ := h
            rw [← hr]
            exact ih (buf.drop len.toNat) F' r' hrec
          | goPanic => simp at h
          | goError => simp at h
    · rw [if_neg hlen] at h
      simp only [Option.some.injEq, FrameResult.ok.injEq] at h
      obtain ⟨hF, hr⟩ := h
      rw [← hr, fixedRun, if_neg hlen]

/-- Appending more input to a finished `fixedRun` continues from the
remainder: the frames concatenate. -/
theorem fixedRun_append (len : Int) :
    ∀ (fuel : Nat) (buf b2 : List Nat) (F : List (List Nat)) (r : List Nat)
      (fuel2 : Nat) (F2 : List (List Nat)) (r2 : List Nat),
      fixedRun len buf fuel = some (.ok F r) →
      fixedRun len (r ++ b2) fuel2 = some (.ok F2 r2) →
      fixedRun len (buf ++ b2) (fuel + fuel2) = some (.ok (F ++ F2) r2) := by
  intro fuel
  induction fuel with
  | zero => intro _ _ _ _ _ _ _ h; simp [fixedRun] at h
  | succ n ih =>
    intro buf b2 F r fuel2 F2 r2 h h2
    rw [fixedRun] at h
    by_cases hlen : len ≤ (buf.length : Int)
    · rw [if_pos hlen] at h
      rcases hsl : goSlice buf 0 len with _ | frame
      · rw [hsl] at h
        simp at h
      · rw [hsl] at h
        simp only at h
        rcases hrec : fixedRun len (buf.drop len.toNat) n with _ | fr
        · rw [hrec] at h
          simp at h
        · rw [hrec] at h
          cases fr with
          | ok F' r' =>
            simp only [Option.some.injEq, FrameResult.ok.injEq] at h
            obtain ⟨hF, hr⟩ := h
            rw [← hr] at h2
            have hlen0 : 0 ≤ len := by
              by_contra hneg
              rw [goSlice_eq_none (by push_cast; omega)] at hsl
              exact Option.noConfusion hsl
            have hstep := ih (buf.drop len.toNat) b2 F' r' fuel2 F2 r2 hrec h2
            rw [Nat.succ_add, fixedRun]
            rw [if_pos (by simp only [List.length_append]; push_cast; omega)]
            rw [goSlice_append le_rfl hlen0 hlen, hsl]
            simp only
            have hdrop : (buf ++ b2).drop len.toNat = buf.drop len.toNat ++ b2 :=
              List.drop_append_of_le_length (by omega)
            rw [hdrop, hstep]
            rw [← hF]
            rfl
          | goPanic => simp at h
          | goError => simp at h
    · rw [if_neg hlen] at h
      simp only [Option.some.injEq, FrameResult.ok.injEq] at h
      obtain ⟨hF, hr⟩ := h
      rw [← hr] at h2
      have := fixedRun_mono len fuel2 (n + 1) (buf ++ b2) (.ok F2 r2) h2
      rw [Nat.add_comm fuel2 (n + 1)] at this
      rw [this, ← hF]
      rfl

/-- With a positive frame length every input is consumed to a
remainder shorter than the frame length; fuel `|buf| + 1` always
suffices. -/
theorem fixedRun_total (len : Int) (hlen : 1 ≤ len) :
    ∀ (n : Nat) (buf : List Nat), buf.length ≤ n →
      ∃ F r, fixedRun len buf (n + 1) = some (.ok F r) := by
  intro n
  induction n with
  | zero =>
    intro buf hb
    have : buf = [] := List.eq_nil_of_length_eq_zero (Nat.le_zero.mp hb)
    subst this
    refine ⟨[], [], ?_⟩
    rw [fixedRun, if_neg (by simp; omega)]
  | succ n ih =>
    intro buf hb
    by_cases hc : len ≤ (buf.length : Int)
    · have hsl : goSlice buf 0 len = some ((buf.drop 0).take len.toNat) := by
        simpa using goSlice_eq_some le_rfl (by omega) hc
      have hdroplen : (buf.drop len.toNat).length ≤ n := by
        simp only [List.length_drop]
        omega
      obtain ⟨F, r, hrec⟩ := ih (buf.drop len.toNat) hdroplen
      refine ⟨(buf.drop 0).take len.toNat :: F, r, ?_⟩
      rw [fixedRun, if_pos hc, hsl]
      simp only
      rw [hrec]
    · refine ⟨[], buf, ?_⟩
      rw [fixedRun, if_neg hc]

/-- A negative frame length panics at once (`buf[:length]` with a
negative bound). -/
theorem fixedRun_neg_panic (len : Int) (hlen : len < 0) (buf : List Nat) :
    fixedRun len buf 1 = some .goPanic := by
  rw [fixedRun, if_pos (by omega), goSlice_eq_none (by omega)]

/-- A zero frame length never terminates: every loop iteration leaves
the buffer unchanged. -/
theorem fixedRun_zero_none : ∀ (fuel : Nat) (buf : List Nat),
    fixedRun 0 buf fuel = none := by
  intro fuel
  induction fuel with
  | zero => intro buf; rfl
  | succ n ih =>
    intro buf
    have hsl : goSlice buf 0 0 = some [] := by
      simpa using goSlice_eq_some le_rfl le_rfl (by positivity)
    rw [fixedRun, if_pos (by positivity), hsl]
    simp only [Int.toNat_zero, List.drop_zero]
    rw [ih buf]

/-! ### `DelimiterFramer` lemmas -/

/-- `bytes.Index` with an empty separator is `0`. -/
theorem bytesIndex_nil : ∀ buf : List Nat, bytesIndex [] buf = some 0 := by
  intro buf
  cases buf <;> simp [bytesIndex]

/-- A found occurrence fits inside the buffer. -/
theorem bytesIndex_le (d : List Nat) :
    ∀ (buf : List Nat) (idx : Nat), bytesIndex d buf = some idx →
      idx + d.length ≤ buf.length := by
  intro buf
  induction buf with
  | nil =>
    intro idx h
    simp only [bytesIndex] at h
    split at h
    · rename_i hd
      simp only [Option.some.injEq] at h
      simp [List.isEmpty_iff.mp hd, ← h]
    · exact Option.noConfusion h
  | cons b rest ih =>
    intro idx h
    simp only [bytesIndex] at h
    split at h
    · rename_i hmatch
      simp only [Option.some.injEq] at h
      subst h
      have := congrArg List.length hmatch
      simp only [List.length_take, List.length_cons] at this
      simp only [List.length_cons]
      omega
    · rcases hrec : bytesIndex d rest with _ | j
      · rw [hrec] at h; simp at h
      · rw [hrec] at h
        simp only [Option.map_some', Option.some.injEq] at h
        subst h
        have := ih j hrec
        simp only [List.length_cons]
        omega

/-- The leftmost occurrence in a buffer stays the leftmost occurrence
when more input is appended: an earlier straddling match would need
more room than the found complete match leaves. -/
theorem bytesIndex_append (d : List Nat) :
    ∀ (buf b2 : List Nat) (idx : Nat), bytesIndex d buf = some idx →
      bytesIndex d (buf ++ b2) = some idx := by
  intro buf
  induction buf with
  | nil =>
    intro b2 idx h
    simp only [bytesIndex] at h
    split at h
    · rename_i hd
      simp only [Option.some.injEq] at h
      subst h
      rw [List.isEmpty_iff.mp hd]
      simpa using bytesIndex_nil b2
    · exact Option.noConfusion h
  | cons b rest ih =>
    intro b2 idx h
    simp only [bytesIndex] at h
    split at h
    · rename_i hmatch
      simp only [Option.some.injEq] at h
      subst h
      have hdlen : d.length ≤ (b :: rest).length := by
        have := congrArg List.length hmatch
        simp only [List.length_take, List.length_cons] at this ⊢
        omega
      have hmatch2 : (b :: (rest ++ b2)).take d.length = d := by
        rw [show (b :: (rest ++ b2)) = (b :: rest) ++ b2 from rfl,
          List.take_append_of_le_length hdlen]
        exact hmatch
      show bytesIndex d (b :: (rest ++ b2)) = some 0
      simp only [bytesIndex]
      rw [if_pos hmatch2]
    · rename_i hmatch
      rcases hrec : bytesIndex d rest with _ | j
      · rw [hrec] at h; simp at h
      · rw [hrec] at h
        simp only [Option.map_some', Option.some.injEq] at h
        subst h
        have hfit : j + d.length ≤ rest.length := bytesIndex_le d rest j hrec
        have hdlen : d.length ≤ (b :: rest).length := by
          simp only [List.length_cons]; omega
        have hnomatch : (b :: (rest ++ b2)).take d.length ≠ d := by
          rw [show (b :: (rest ++ b2)) = (b :: rest) ++ b2 from rfl,
            List.take_append_of_le_length hdlen]
          exact hmatch
        show bytesIndex d (b :: (rest ++ b2)) = some j.succ
        simp only [bytesIndex]
        rw [if_neg hnomatch, ih b2 j hrec]
        rfl

/-- More fuel never changes a settled `delimiterRun` result. -/
theorem delimiterRun_mono (d : List Nat) :
    ∀ (fuel k : Nat) (buf : List Nat) (r : FrameResult),
      delimiterRun d buf fuel = some r → delimiterRun d buf (fuel + k) = some r := by
  intro fuel
  induction fuel with
  | zero => intro k buf r h; simp [delimiterRun] at h
  | succ n ih =>
    intro k buf r h
    rw [Nat.succ_add, delimiterRun]
    rw [delimiterRun] at h
    rcases hidx : bytesIndex d buf with _ | idx
    · rw [hidx] at h
      exact h
    · rw [hidx] at h
      simp only at h ⊢
      rcases hrec : delimiterRun d (buf.drop (idx + d.length)) n with _ | fr
      · rw [hrec] at h
        simp at h
      · rw [hrec] at h
        rw [ih k _ fr hrec]
        exact h

/-- A `delimiterRun` remainder is inert: no delimiter occurs in it. -/
theorem delimiterRun_stops (d : List Nat) :
    ∀ (fuel : Nat) (buf : List Nat) (F : List (List Nat)) (r : List Nat),
      delimiterRun d buf fuel = some (.ok F r) →
      delimiterRun d r 1 = some (.ok [] r) := by
  intro fuel
  induction fuel with
  | zero => intro buf F r h; simp [delimiterRun] at h
  | succ n ih =>
    intro buf F r h
    rw [delimiterRun] at h
    rcases hidx : bytesIndex d buf with _ | idx
    · rw [hidx] at h
      simp only [Option.some.injEq, FrameResult.ok.injEq] at h
      obtain ⟨hF, hr⟩ := h
      rw [← hr, delimiterRun, hidx]
    · rw [hidx] at h
      simp only at h
      rcases hrec : delimiterRun d (buf.drop (idx + d.length)) n with _ | fr
      · rw [hrec] at h
        simp at h
      · rw [hrec] at h
        cases fr with
        | ok F' r' =>
          simp only [Option.some.injEq, FrameResult.ok.injEq] at h
          obtain ⟨hF, hr⟩ := h
          rw [← hr]
          exact ih (buf.drop (idx + d.length)) F' r' hrec
        | goPanic => simp at h
        | goError => simp at h

/-- Appending more input to a finished `delimiterRun` continues from
the remainder: the frames concatenate. -/
theorem delimiterRun_append (d : List Nat) :
    ∀ (fuel : Nat) (buf b2 : List Nat) (F : List (List Nat)) (r : List Nat)
      (fuel2 : Nat) (F2 : List (List Nat)) (r2 : List Nat),
      delimiterRun d buf fuel = some (.ok F r) →
      delimiterRun d (r ++ b2) fuel2 = some (.ok F2 r2) →
      delimiterRun d (buf ++ b2) (fuel + fuel2) = some (.ok (F ++ F2) r2) := by
  intro fuel
  induction fuel with
  | zero => intro _ _ _ _ _ _ _ h; simp [delimiterRun] at h
  | succ n ih =>
    intro buf b2 F r fuel2 F2 r2 h h2
    rw [delimiterRun] at h
    rcases hidx : bytesIndex d buf with _ | idx
    · rw [hidx] at h
      simp only [Option.some.injEq, FrameResult.ok.injEq] at h
      obtain ⟨hF, hr⟩ := h
      rw [← hr] at h2
      have := delimiterRun_mono d fuel2 (n + 1) (buf ++ b2) (.ok F2 r2) h2
      rw [Nat.add_comm fuel2 (n + 1)] at this
      rw [this, ← hF]
      rfl
    · rw [hidx] at h
      simp only at h
      rcases hrec : delimiterRun d (buf.drop (idx + d.length)) n with _ | fr
      · rw [hrec] at h
        simp at h
      · rw [hrec] at h
        cases fr with
        | ok F' r' =>
          simp only [Option.some.injEq, FrameResult.ok.injEq] at h
          obtain ⟨hF, hr⟩ := h
          rw [← hr] at h2
          have hfit : idx + d.length ≤ buf.length := bytesIndex_le d buf idx hidx
          have hstep := ih (buf.drop (idx + d.length)) b2 F' r' fuel2 F2 r2 hrec h2
          rw [Nat.succ_add, delimiterRun, bytesIndex_append d buf b2 idx hidx]
          simp only
          have hdrop : (buf ++ b2).drop (idx + d.length) =
              buf.drop (idx + d.length) ++ b2 :=
            List.drop_append_of_le_length hfit
          have htake : (buf ++ b2).take idx = buf.take idx :=
            List.take_append_of_le_length (by omega)
          rw [hdrop, hstep, htake, ← hF]
          rfl
        | goPanic => simp at h
        | goError => simp at h

/-- With a nonempty delimiter every step consumes at least one byte;
fuel `|buf| + 1` always suffices. -/
theorem delimiterRun_total (d : List Nat) (hd : d ≠ []) :
    ∀ (n : Nat) (buf : List Nat), buf.length ≤ n →
      ∃ F r, delimiterRun d buf (n + 1) = some (.ok F r) := by
  intro n
  induction n with
  | zero =>
    intro buf hb
    have : buf = [] := List.eq_nil_of_length_eq_zero (Nat.le_zero.mp hb)
    subst this
    refine ⟨[], [], ?_⟩
    rw [delimiterRun]
    have : bytesIndex d [] = none := by
      simp only [bytesIndex]
      rw [if_neg (by simpa using hd)]
    rw [this]
  | succ n ih =>
    intro buf hb
    rcases hidx : bytesIndex d buf with _ | idx
    · exact ⟨[], buf, by rw [delimiterRun, hidx]⟩
    · have hfit : idx + d.length ≤ buf.length := bytesIndex_le d buf idx hidx
      have hdlen : 1 ≤ d.length := by
        cases d
        · exact absurd rfl hd
        · simp
      have hrest : (buf.drop (idx + d.length)).length ≤ n := by
        simp only [List.length_drop]
        omega
      obtain ⟨F, r, hrec⟩ := ih (buf.drop (idx + d.length)) hrest
      refine ⟨buf.take idx :: F, r, ?_⟩
      rw [delimiterRun, hidx]
      simp only
      rw [hrec]

/-- An empty delimiter never terminates: `bytes.Index` returns `0`
forever and no byte is consumed. -/
theorem delimiterRun_empty_none : ∀ (fuel : Nat) (buf : List Nat),
    delimiterRun [] buf fuel = none := by
  intro fuel
  induction fuel with
  | zero => intro buf; rfl
  | succ n ih =>
    intro buf
    rw [delimiterRun, bytesIndex_nil]
    simp only [List.length_nil, Nat.add_zero, List.drop_zero]
    rw [ih buf]

/-! ### `LengthFieldFramer` lemmas -/

/-- A successful slice certifies its bounds. -/
theorem goSlice_some_bounds {buf : List Nat} {lo hi : Int} {x : List Nat}
    (h : goSlice buf lo hi = some x) :
    0 ≤ lo ∧ lo ≤ hi ∧ hi ≤ (buf.length : Int) := by
  by_contra hc
  rw [goSlice_eq_none hc] at h
  exact Option.noConfusion h

/-- More fuel never changes a settled `lfRun` result. -/
theorem lfRun_mono (o w a strip : Int) (ord : ByteOrder) :
    ∀ (fuel k : Nat) (buf : List Nat) (r : FrameResult),
      lfRun o w a strip ord buf fuel = some r →
      lfRun o w a strip ord buf (fuel + k) = some r := by
  intro fuel
  induction fuel with
  | zero => intro k buf r h; simp [lfRun] at h
  | succ n ih =>
    intro k buf r h
    rw [Nat.succ_add, lfRun]
    rw [lfRun] at h
    by_cases h1 : (buf.length : Int) < o + w
    · rw [if_pos h1] at h ⊢
      exact h
    · rw [if_neg h1] at h ⊢
      rcases hsl : goSlice buf o (o + w) with _ | fb
      · rw [hsl] at h
        exact h
      · rw [hsl] at h
        simp only at h ⊢
        by_cases hw : w = 1 ∨ w = 2 ∨ w = 4 ∨ w = 8
        · rw [if_pos hw] at h ⊢
          by_cases h2 : (buf.length : Int) < lfFrameEnd o w a ord fb
          · rw [if_pos h2] at h ⊢
            exact h
          · rw [if_neg h2] at h ⊢
            rcases hsl2 : goSlice buf strip (lfFrameEnd o w a ord fb) with _ | frame
            · rw [hsl2] at h
              exact h
            · rw [hsl2] at h
              simp only at h ⊢
              rcases hrec : lfRun o w a strip ord
                  (buf.drop (lfFrameEnd o w a ord fb).toNat) n with _ | fr
              · rw [hrec] at h
                simp at h
              · rw [hrec] at h
                rw [ih k _ fr hrec]
                exact h
        · rw [if_neg hw] at h ⊢
          exact h

/-- An `lfRun` remainder is inert: it fails the same break test that
stopped the run. -/
theorem lfRun_stops (o w a strip : Int) (ord : ByteOrder) :
    ∀ (fuel : Nat) (buf : List Nat) (F : List (List Nat)) (r : List Nat),
      lfRun o w a strip ord buf fuel = some (.ok F r) →
      lfRun o w a strip ord r 1 = some (.ok [] r) := by
  intro fuel
  induction fuel with
  | zero => intro buf F r h; simp [lfRun] at h
  | succ n ih =>
    intro buf F r h
    rw [lfRun] at h
    by_cases h1 : (buf.length : Int) < o + w
    · rw [if_pos h1] at h
      simp only [Option.some.injEq, FrameResult.ok.injEq] at h
      obtain ⟨hF, hr⟩ := h
      rw [← hr, lfRun, if_pos h1]
    · rw [if_neg h1] at h
      rcases hsl : goSlice buf o (o + w) with _ | fb
      · rw [hsl] at h
        simp at h
      · rw [hsl] at h
        simp only at h
        by_cases hw : w = 1 ∨ w = 2 ∨ w = 4 ∨ w = 8
        · rw [if_pos hw] at h
          by_cases h2 : (buf.length : Int) < lfFrameEnd o w a ord fb
          · rw [if_pos h2] at h
            simp only [Option.some.injEq, FrameResult.ok.injEq] at h
            obtain ⟨hF, hr⟩ := h
            rw [← hr, lfRun, if_neg h1, hsl]
            simp only
            rw [if_pos hw, if_pos h2]
          · rw [if_neg h2] at h
            rcases hsl2 : goSlice buf strip (lfFrameEnd o w a ord fb) with _ | frame
            · rw [hsl2] at h
              simp at h
            · rw [hsl2] at h
              simp only at h
              rcases hrec : lfRun o w a strip ord
                  (buf.drop (lfFrameEnd o w a ord fb).toNat) n with _ | fr
              · rw [hrec] at h
                simp at h
              · rw [hrec] at h
                cases fr with
                | ok F' r' =>
                  simp only [Option.some.injEq, FrameResult.ok.injEq] at h
                  obtain ⟨hF, hr⟩ := h
                  rw [← hr]
                  exact ih _ F' r' hrec
                | goPanic => simp at h
                | goError => simp at h
        · rw [if_neg hw] at h
          simp at h

/-- Appending more input to a finished `lfRun` continues from the
remainder: the frames concatenate. -/
theorem lfRun_append (o w a strip : Int) (ord : ByteOrder) :
    ∀ (fuel : Nat) (buf b2 : List Nat) (F : List (List Nat)) (r : List Nat)
      (fuel2 : Nat) (F2 : List (List Nat)) (r2 : List Nat),
      lfRun o w a strip ord buf fuel = some (.ok F r) →
      lfRun o w a strip ord (r ++ b2) fuel2 = some (.ok F2 r2) →
      lfRun o w a strip ord (buf ++ b2) (fuel + fuel2) = some (.ok (F ++ F2) r2) := by
  intro fuel
  induction fuel with
  | zero => intro _ _ _ _ _ _ _ h; simp [lfRun] at h
  | succ n ih =>
    intro buf b2 F r fuel2 F2 r2 h h2
    rw [lfRun] at h
    by_cases h1 : (buf.length : Int) < o + w
    · rw [if_pos h1] at h
      simp only [Option.some.injEq, FrameResult.ok.injEq] at h
      obtain ⟨hF, hr⟩ := h
      rw [← hr] at h2
      have := lfRun_mono o w a strip ord fuel2 (n + 1) (buf ++ b2) (.ok F2 r2) h2
      rw [Nat.add_comm fuel2 (n + 1)] at this
      rw [this, ← hF]
      rfl
    · rw [if_neg h1] at h
      rcases hsl : goSlice buf o (o + w) with _ | fb
      · rw [hsl] at h
        simp at h
      · rw [hsl] at h
        simp only at h
        obtain ⟨ho, _, how⟩ := goSlice_some_bounds hsl
        by_cases hw : w = 1 ∨ w = 2 ∨ w = 4 ∨ w = 8
        · rw [if_pos hw] at h
          by_cases h2c : (buf.length : Int) < lfFrameEnd o w a ord fb
          · rw [if_pos h2c] at h
            simp only [Option.some.injEq, FrameResult.ok.injEq] at h
            obtain ⟨hF, hr⟩ := h
            rw [← hr] at h2
            have := lfRun_mono o w a strip ord fuel2 (n + 1) (buf ++ b2) (.ok F2 r2) h2
            rw [Nat.add_comm fuel2 (n + 1)] at this
            rw [this, ← hF]
            rfl
          · rw [if_neg h2c] at h
            rcases hsl2 : goSlice buf strip (lfFrameEnd o w a ord fb) with _ | frame
            · rw [hsl2] at h
              simp at h
            · rw [hsl2] at h
              simp only at h
              rcases hrec : lfRun o w a strip ord
                  (buf.drop (lfFrameEnd o w a ord fb).toNat) n with _ | fr
              · rw [hrec] at h
                simp at h
              · rw [hrec] at h
                cases fr with
                | ok F' r' =>
                  simp only [Option.some.injEq, FrameResult.ok.injEq] at h
                  obtain ⟨hF, hr⟩ := h
                  rw [← hr] at h2
                  obtain ⟨hs0, hs1, hs2⟩ := goSlice_some_bounds hsl2
                  have hstep := ih _ b2 F' r' fuel2 F2 r2 hrec h2
                  rw [Nat.succ_add, lfRun]
                  rw [if_neg (by simp only [List.length_append]; push_cast; omega)]
                  rw [goSlice_append ho (by omega) how, hsl]
                  simp only
                  rw [if_pos hw]
                  rw [if_neg (by simp only [List.length_append]; push_cast; omega)]
                  rw [goSlice_append hs0 hs1 hs2, hsl2]
                  simp only
                  have hdrop : (buf ++ b2).drop (lfFrameEnd o w a ord fb).toNat =
                      buf.drop (lfFrameEnd o w a ord fb).toNat ++ b2 :=
                    List.drop_append_of_le_length (by omega)
                  rw [hdrop, hstep, ← hF]
                  rfl
                | goPanic => simp at h
                | goError => simp at h
        · rw [if_neg hw] at h
          simp at h

/-- Within the `int64` range the wrap is the identity. -/
theorem wrap64_eq_self {x : Int} (h1 : -(2 ^ 63) ≤ x) (h2 : x < 2 ^ 63) :
    wrap64 x = x := by
  unfold wrap64
  rw [Int.emod_eq_of_lt (by omega) (by norm_num; omega)]
  omega

/-- The byte-accumulating fold is bounded by the positional value of
its digits. -/
theorem foldl_bytes_lt :
    ∀ (bytes : List Nat) (init : Nat), (∀ b ∈ bytes, b < 256) →
      bytes.foldl (fun acc b => acc * 256 + b) init < (init + 1) * 256 ^ bytes.length := by
  intro bytes
  induction bytes with
  | nil => intro init _; simp only [List.foldl_nil, List.length_nil, pow_zero, mul_one]; omega
  | cons b rest ih =>
    intro init h
    have hb : b < 256 := h b (List.mem_cons_self b rest)
    have hrest := ih (init * 256 + b) (fun x hx => h x (List.mem_cons_of_mem _ hx))
    have hstep : init * 256 + b + 1 ≤ (init + 1) * 256 := by omega
    calc (b :: rest).foldl (fun acc c => acc * 256 + c) init
        = rest.foldl (fun acc c => acc * 256 + c) (init * 256 + b) := rfl
      _ < (init * 256 + b + 1) * 256 ^ rest.length := hrest
      _ ≤ ((init + 1) * 256) * 256 ^ rest.length :=
          Nat.mul_le_mul_right _ hstep
      _ = (init + 1) * 256 ^ (b :: rest).length := by
          simp only [List.length_cons]
          ring

/-- A length field read from byte values is bounded by `256 ^ width`. -/
theorem readUint_lt (ord : ByteOrder) (bytes : List Nat)
    (h : ∀ b ∈ bytes, b < 256) :
    readUint ord bytes < 256 ^ bytes.length := by
  cases ord with
  | big => simpa using foldl_bytes_lt bytes 0 h
  | little =>
    have := foldl_bytes_lt bytes.reverse 0 (fun b hb => h b (List.mem_reverse.mp hb))
    simpa [readUint] using this

/-- In the nominal range — a field of genuine byte values, a
nonnegative adjusted length, and a packet end below `2^63` — the Go
integer reinterpretations in `lfFrameEnd` cancel out and the frame end
is exactly `o + w + field + a`. -/
theorem lfFrameEnd_nominal (o w : Nat) (a : Int) (ord : ByteOrder)
    (fb : List Nat) (hfield : readUint ord fb < 2 ^ 64)
    (hlo : 0 ≤ (readUint ord fb : Int) + a)
    (hhi : (o : Int) + w + readUint ord fb + a < 2 ^ 63) :
    lfFrameEnd o w a ord fb = (o : Int) + w + readUint ord fb + a := by
  unfold lfFrameEnd
  have hfieldI : (readUint ord fb : Int) < 2 ^ 64 := by exact_mod_cast hfield
  have hcast : ((toU64 a : Nat) : Int) = a % 2 ^ 64 := by
    unfold toU64
    exact Int.toNat_of_nonneg (Int.emod_nonneg a (by positivity))
  have hsum : (((readUint ord fb + toU64 a) % 2 ^ 64 : Nat) : Int) =
      (readUint ord fb : Int) + a := by
    push_cast
    rw [hcast]
    omega
  have hlt63 : ((readUint ord fb + toU64 a) % 2 ^ 64 : Nat) < 2 ^ 63 := by
    have h1 : (((readUint ord fb + toU64 a) % 2 ^ 64 : Nat) : Int) < 2 ^ 63 := by
      rw [hsum]
      omega
    exact_mod_cast h1
  unfold u64ToInt64
  rw [if_pos hlt63, hsum]
  have hx : wrap64 ((o : Int) + w + ((readUint ord fb : Int) + a)) =
      (o : Int) + w + ((readUint ord fb : Int) + a) :=
    wrap64_eq_self (by omega) (by omega)
  rw [hx]
  ring

/-- The core equivalence behind the length-field framer claim: in the
nominal range — width in `{1,2,4,8}`, `strip` within the header,
genuine byte values, and every encountered length field satisfying
`0 ≤ field + a` and `o + w + field + a < 2^63` (which is what
`lfClaimRun` returning an inner `some` certifies) — the Go loop
computes exactly the claim's frames and remainder. -/
theorem lfRun_nominal (o w strip : Nat) (a : Int) (ord : ByteOrder)
    (hw : w = 1 ∨ w = 2 ∨ w = 4 ∨ w = 8) (hstrip : strip ≤ o + w) :
    ∀ (fuel : Nat) (buf : List Nat) (F : List (List Nat)) (r : List Nat),
      (∀ b ∈ buf, b < 256) →
      lfClaimRun o w strip a ord buf fuel = some (some (F, r)) →
      lfRun o w a strip ord buf fuel = some (.ok F r) := by
  intro fuel
  induction fuel with
  | zero => intro buf F r _ h; simp [lfClaimRun] at h
  | succ n ih =>
    intro buf F r hbytes h
    rw [lfClaimRun] at h
    by_cases h1 : buf.length < o + w
    · rw [if_pos h1] at h
      simp only [Option.some.injEq, Prod.mk.injEq] at h
      obtain ⟨hF, hr⟩ := h
      rw [lfRun, if_pos (by exact_mod_cast h1), ← hF, ← hr]
    · rw [if_neg h1] at h
      simp only at h
      have hwI : (w : Int) = 1 ∨ (w : Int) = 2 ∨ (w : Int) = 4 ∨ (w : Int) = 8 := by
        rcases hw with hh | hh | hh | hh <;> simp [hh]
      have hlen : o + w ≤ buf.length := Nat.le_of_not_lt h1
      have hslice : goSlice buf o (o + w) = some ((buf.drop o).take w) := by
        have h3 : ((o : Int) + w) ≤ (buf.length : Int) := by exact_mod_cast hlen
        have := @goSlice_eq_some buf ((o : Int)) ((o : Int) + w)
          (by positivity) (by omega) h3
        simpa using this
      have hfb_bytes : ∀ b ∈ (buf.drop o).take w, b < 256 := fun b hb =>
        hbytes b (List.drop_subset _ _ (List.take_subset _ _ hb))
      have hfb_len : ((buf.drop o).take w).length = w := by
        simp only [List.length_take, List.length_drop]
        omega
      have hfield : readUint ord ((buf.drop o).take w) < 2 ^ 64 := by
        have hu := readUint_lt ord _ hfb_bytes
        rw [hfb_len] at hu
        have hple : (256 : Nat) ^ w ≤ 2 ^ 64 := by
          rcases hw with hh | hh | hh | hh <;> subst hh <;> norm_num
        omega
      by_cases hsane : 0 ≤ (readUint ord ((buf.drop o).take w) : Int) + a ∧
          (o : Int) + w + readUint ord ((buf.drop o).take w) + a < 2 ^ 63
      · rw [if_pos hsane] at h
        have hfe : lfFrameEnd o w a ord ((buf.drop o).take w) =
            (o : Int) + w + readUint ord ((buf.drop o).take w) + a :=
          lfFrameEnd_nominal o w a ord _ hfield hsane.1 hsane.2
        have hpk0 : 0 ≤ (o : Int) + w + readUint ord ((buf.drop o).take w) + a := by
          obtain ⟨hs1, _⟩ := hsane
          have ho' : (0 : Int) ≤ o := by positivity
          have hw' : (0 : Int) ≤ w := by positivity
          omega
        have hpkeq : ((((o : Int) + w + readUint ord ((buf.drop o).take w) + a).toNat : Nat) : Int) =
            (o : Int) + w + readUint ord ((buf.drop o).take w) + a :=
          Int.toNat_of_nonneg hpk0
        by_cases h2 : buf.length < ((o : Int) + w + readUint ord ((buf.drop o).take w) + a).toNat
        · rw [if_pos h2] at h
          simp only [Option.some.injEq, Prod.mk.injEq] at h
          obtain ⟨hF, hr⟩ := h
          rw [lfRun, if_neg (by exact_mod_cast h1), hslice]
          simp only
          rw [if_pos hwI, hfe, if_pos (by rw [← hpkeq]; exact_mod_cast h2), ← hF, ← hr]
        · rw [if_neg h2] at h
          rcases hrec : lfClaimRun o w strip a ord
              (buf.drop (((o : Int) + w + readUint ord ((buf.drop o).take w) + a).toNat)) n
              with _ | inner
          · rw [hrec] at h
            simp at h
          · cases inner with
            | none =>
              rw [hrec] at h
              simp at h
            | some pr =>
              obtain ⟨F', r'⟩ := pr
              rw [hrec] at h
              simp only [Option.some.injEq, Prod.mk.injEq] at h
              obtain ⟨hF, hr⟩ := h
              have hdbytes : ∀ b ∈ buf.drop
                  (((o : Int) + w + readUint ord ((buf.drop o).take w) + a).toNat), b < 256 :=
                fun b hb => hbytes b (List.drop_subset _ _ hb)
              have hihres := ih _ F' r' hdbytes hrec
              have hnot2 : ¬ ((buf.length : Int) <
                  (o : Int) + w + readUint ord ((buf.drop o).take w) + a) := by
                rw [← hpkeq]
                exact_mod_cast h2
              have hstripI : (strip : Int) ≤
                  (o : Int) + w + readUint ord ((buf.drop o).take w) + a := by
                obtain ⟨hs1, _⟩ := hsane
                have : (strip : Int) ≤ (o : Int) + w := by exact_mod_cast hstrip
                omega
              have hslice2 : goSlice buf strip
                  ((o : Int) + w + readUint ord ((buf.drop o).take w) + a) =
                  some ((buf.drop strip).take
                    ((((o : Int) + w + readUint ord ((buf.drop o).take w) + a).toNat) - strip)) := by
                have hgs := @goSlice_eq_some buf ((strip : Int))
                  ((o : Int) + w + readUint ord ((buf.drop o).take w) + a)
                  (by positivity) hstripI (by omega)
                have hsn : ((strip : Int)).toNat = strip := by simp
                have hsub : (((o : Int) + w + readUint ord ((buf.drop o).take w) + a) -
                    (strip : Int)).toNat =
                    (((o : Int) + w + readUint ord ((buf.drop o).take w) + a).toNat) - strip := by
                  omega
                rw [hgs, hsn, hsub]
              rw [lfRun, if_neg (by exact_mod_cast h1), hslice]
              simp only
              rw [if_pos hwI, hfe, if_neg hnot2, hslice2]
              simp only
              rw [hihres, ← hF, ← hr]
      · rw [if_neg hsane] at h
        simp at h

/-! ### Remainder-carry iteration -/

/-- Gluing lemma: for a framer whose settled results are
fuel-monotone, whose remainders are inert, and whose runs compose over
appends, any remainder-carry iteration over a chunk list equals one
run over the concatenation. -/
theorem iterOk_single_call (run : List Nat → Nat → Option FrameResult)
    (stops : ∀ (fuel : Nat) (buf : List Nat) (F : List (List Nat)) (r : List Nat),
      run buf fuel = some (.ok F r) → run r 1 = some (.ok [] r))
    (apnd : ∀ (fuel : Nat) (buf b2 : List Nat) (F : List (List Nat)) (r : List Nat)
      (fuel2 : Nat) (F2 : List (List Nat)) (r2 : List Nat),
      run buf fuel = some (.ok F r) → run (r ++ b2) fuel2 = some (.ok F2 r2) →
      run (buf ++ b2) (fuel + fuel2) = some (.ok (F ++ F2) r2)) :
    ∀ (chunks : List (List Nat)) (carry : List Nat) (F : List (List Nat)) (r : List Nat),
      run carry 1 = some (.ok [] carry) →
      IterOk run carry chunks F r →
      ∃ fuel, run (carry ++ chunks.flatten) fuel = some (.ok F r) := by
  intro chunks
  induction chunks with
  | nil =>
    intro carry F r hcarry hiter
    obtain ⟨hF, hr⟩ := hiter
    subst hF; subst hr
    exact ⟨1, by simpa using hcarry⟩
  | cons c cs ih =>
    intro carry F r hcarry hiter
    obtain ⟨fuel, f1, r1, f2, hrun, hiter2, hF⟩ := hiter
    have hstop1 : run r1 1 = some (.ok [] r1) := stops fuel (carry ++ c) f1 r1 hrun
    obtain ⟨fuel2, hrest⟩ := ih r1 f2 r hstop1 hiter2
    refine ⟨fuel + fuel2, ?_⟩
    have happ := apnd fuel (carry ++ c) cs.flatten f1 r1 fuel2 f2 r hrun hrest
    subst hF
    simpa [List.flatten_cons, ← List.append_assoc] using happ

/-- Iterated `RawFramer` yields exactly one frame per chunk, with an
empty final remainder. -/
theorem iterOk_raw : ∀ (chunks : List (List Nat)) (F : List (List Nat)) (r : List Nat),
    IterOk (fun buf _ => some (rawFramer buf)) [] chunks F r →
    chunks ≠ [] → F = chunks ∧ r = [] := by
  intro chunks
  induction chunks with
  | nil => intro F r _ hne; exact absurd rfl hne
  | cons c cs ih =>
    intro F r hiter _
    obtain ⟨fuel, f1, r1, f2, hrun, hiter2, hF⟩ := hiter
    simp only [rawFramer, List.nil_append, Option.some.injEq,
      FrameResult.ok.injEq] at hrun
    obtain ⟨hf1, hr1⟩ := hrun
    subst hf1
    subst hr1
    cases cs with
    | nil =>
      obtain ⟨hf2, hr⟩ := hiter2
      subst hf2; subst hr
      subst hF
      exact ⟨rfl, rfl⟩
    | cons c2 cs2 =>
      obtain ⟨hf2, hr⟩ := ih f2 r hiter2 (by simp)
      subst hf2; subst hr
      subst hF
      exact ⟨rfl, rfl⟩

/-! ### C3: framer composability -/

/-- C3 (amended): for `FixedLengthFramer` with a positive length, for
`DelimiterFramer` with a nonempty delimiter, and for
`LengthFieldFramer` with a nonempty header window, a remainder-carry
iteration over any chunk sequence yields exactly the frames and final
remainder of a single invocation on the chunks' concatenation.
`RawFramer` is the exception the claim overlooks: iterating it yields
one frame per chunk, while a single call on the concatenation yields
the single concatenated frame. -/
theorem framer_composability (len : Int) (d : List Nat)
    (o w a strip : Int) (ord : ByteOrder) :
    (∀ (chunks : List (List Nat)) (F : List (List Nat)) (r : List Nat),
      1 ≤ len → IterOk (fixedRun len) [] chunks F r →
      ∃ fuel, fixedRun len chunks.flatten fuel = some (.ok F r)) ∧
    (∀ (chunks : List (List Nat)) (F : List (List Nat)) (r : List Nat),
      d ≠ [] → IterOk (delimiterRun d) [] chunks F r →
      ∃ fuel, delimiterRun d chunks.flatten fuel = some (.ok F r)) ∧
    (∀ (chunks : List (List Nat)) (F : List (List Nat)) (r : List Nat),
      1 ≤ o + w → IterOk (lfRun o w a strip ord) [] chunks F r →
      ∃ fuel, lfRun o w a strip ord chunks.flatten fuel = some (.ok F r)) ∧
    (∀ (chunks : List (List Nat)) (F : List (List Nat)) (r : List Nat),
      IterOk (fun buf _ => some (rawFramer buf)) [] chunks F r →
      chunks ≠ [] →
      (F = chunks ∧ r = [] ∧ rawFramer chunks.flatten = .ok [chunks.flatten] [])) := by
  refine ⟨?_, ?_, ?_, ?_⟩
  · intro chunks F r hlen hiter
    have hstop : fixedRun len [] 1 = some (.ok [] []) := by
      rw [fixedRun, if_neg (by simp; omega)]
    simpa using iterOk_single_call (fixedRun len)
      (fixedRun_stops len) (fixedRun_append len) chunks [] F r hstop hiter
  · intro chunks F r hd hiter
    have hstop : delimiterRun d [] 1 = some (.ok [] []) := by
      rw [delimiterRun]
      have : bytesIndex d [] = none := by
        simp only [bytesIndex]
        rw [if_neg (by simpa using hd)]
      rw [this]
    simpa using iterOk_single_call (delimiterRun d)
      (delimiterRun_stops d) (delimiterRun_append d) chunks [] F r hstop hiter
  · intro chunks F r how hiter
    have hstop : lfRun o w a strip ord [] 1 = some (.ok [] []) := by
      rw [lfRun, if_pos (by simp; omega)]
    simpa using iterOk_single_call (lfRun o w a strip ord)
      (lfRun_stops o w a strip ord)
      (lfRun_append o w a strip ord) chunks [] F r hstop hiter
  · intro chunks F r hiter hne
    obtain ⟨hF, hr⟩ := iterOk_raw chunks F r hiter hne
    exact ⟨hF, hr, rfl⟩

/-- C3 counterexample: for `RawFramer`, the remainder-carry iteration
over the two chunks `[65]`, `[66]` yields the two frames
`[[65], [66]]`, while a single call on the concatenation `[65, 66]`
yields the single frame `[[65, 66]]` — different frame sequences. -/
theorem framer_composability_counterexample :
    IterOk (fun buf _ => some (rawFramer buf)) [] [[65], [66]] [[65], [66]] [] ∧
    rawFramer ([65] ++ [66]) = .ok [[65, 66]] [] ∧
    ([[65], [66]] : List (List Nat)) ≠ [[65, 66]] := by
  refine ⟨?_, rfl, by decide⟩
  exact ⟨1, [[65]], [], [[66]], rfl, ⟨1, [[66]], [], [], rfl, ⟨rfl, rfl⟩, rfl⟩, rfl⟩

/-- C3 witness: the delimiter conjunct at delimiter `[10]` over chunks
`[65, 10]`, `[66]`. -/
theorem framer_composability_witness :
    ∃ fuel, delimiterRun [10] ([[65, 10], [66]] : List (List Nat)).flatten fuel =
      some (.ok [[65]] [66]) :=
  (framer_composability 1 [10] 0 1 0 0 .big).2.1 [[65, 10], [66]] [[65]] [66]
    (by decide)
    ⟨2, [[65]], [], [], by decide, ⟨1, [], [66], [], by decide, ⟨rfl, rfl⟩, rfl⟩, rfl⟩

/-! ### C4: the length-field framer -/

/-- C4 (amended): with a width in `{1,2,4,8}`, `strip` within the
header (`strip ≤ o + w`), byte-valued input, and every encountered
length field in the nominal range (`0 ≤ field + a` and
`o + w + field + a < 2^63`, certified by the claim-side run returning
an inner `some`), `LengthFieldFramer(o, w, a, strip, order)` repeatedly
reads the `w`-byte field at offset `o`, adds `a`, and emits the bytes
from offset `strip` to offset `o + w + length + a` whenever present,
leaving fewer bytes as the remainder; any other width returns the
`unsupported lengthFieldSize` error once a full header is present.
Outside the nominal range the claim fails: a length field at or above
`2^63 - o - w - a` wraps `frameEnd` negative and the slice expression
panics instead of buffering a remainder (see the counterexample). -/
theorem lengthField_framer_nominal (o w strip : Nat) (a : Int) (ord : ByteOrder)
    (hw : w = 1 ∨ w = 2 ∨ w = 4 ∨ w = 8) (hstrip : strip ≤ o + w) :
    (∀ (fuel : Nat) (buf : List Nat) (F : List (List Nat)) (r : List Nat),
      (∀ b ∈ buf, b < 256) →
      lfClaimRun o w strip a ord buf fuel = some (some (F, r)) →
      lfRun o w a strip ord buf fuel = some (.ok F r)) ∧
    (∀ (o' w' a' strip' : Int) (buf' : List Nat), 0 ≤ o' → 0 ≤ w' →
      o' + w' ≤ (buf'.length : Int) → ¬ (w' = 1 ∨ w' = 2 ∨ w' = 4 ∨ w' = 8) →
      lfRun o' w' a' strip' ord buf' 1 = some .goError) := by
  constructor
  · exact fun fuel buf F r hb hc => lfRun_nominal o w strip a ord hw hstrip fuel buf F r hb hc
  · intro o' w' a' strip' buf' ho hw0 hlen hne
    rw [lfRun, if_neg (by omega),
      goSlice_eq_some ho (by omega) hlen]
    simp only
    rw [if_neg hne]

/-- C4 witness: the spec's pinned example — configuration
`(offset 0, width 4, adjust 0, strip 4, big-endian)` on
`00 00 00 05 48 65 6C 6C 6F 00 00 00 03 41 42` emits the single frame
`48 65 6C 6C 6F` ("Hello") and keeps the trailing 6 bytes as the
remainder. -/
theorem lengthField_framer_nominal_witness :
    lfRun 0 4 0 4 .big
      [0, 0, 0, 5, 72, 101, 108, 108, 111, 0, 0, 0, 3, 65, 66] 16 =
      some (.ok [[72, 101, 108, 108, 111]] [0, 0, 0, 3, 65, 66]) :=
  (lengthField_framer_nominal 0 4 4 0 .big (by norm_num) (by norm_num)).1 16
    [0, 0, 0, 5, 72, 101, 108, 108, 111, 0, 0, 0, 3, 65, 66]
    [[72, 101, 108, 108, 111]] [0, 0, 0, 3, 65, 66] (by decide) (by decide)

/-- C4 counterexample: width 8, big-endian, adjustment 0, strip 8, on
the 8-byte buffer `80 00 00 00 00 00 00 00`.  The length field reads
`2^63`; the claim says `o + w + length + a = 2^63 + 8` bytes are not
present, so no frame is emitted and the buffer is kept as remainder —
but the code's `uint64 → int` reinterpretation makes `frameEnd`
negative, the length check passes, and `buf[8 : 8-2^63]` panics. -/
theorem lengthField_framer_counterexample :
    lfRun 0 8 0 8 .big [128, 0, 0, 0, 0, 0, 0, 0] 2 = some .goPanic ∧
    lfRun 0 8 0 8 .big [128, 0, 0, 0, 0, 0, 0, 0] 2 ≠
      some (.ok [] [128, 0, 0, 0, 0, 0, 0, 0]) := by
  exact ⟨by decide, by decide⟩

/-! ### C9: framer totality -/

/-- C9 (amended): `RawFramer` is total; `FixedLengthFramer` with a
positive length always terminates with frames and a remainder within
`|buf| + 1` loop iterations, but a negative length panics on
`buf[:length]` and a zero length never terminates; `DelimiterFramer`
with a nonempty delimiter always terminates, but an empty delimiter
never does; `LengthFieldFramer` terminates without panicking on the
nominal range (and can panic outside it — see the counterexample,
where the slice `buf[initialBytesToStrip:frameEnd]` is out of
range). -/
theorem framer_totality (len : Int) (d : List Nat) (o w strip : Nat)
    (a : Int) (ord : ByteOrder) :
    (∀ buf : List Nat, rawFramer buf = .ok [buf] []) ∧
    (∀ buf : List Nat, 1 ≤ len →
      ∃ F r, fixedRun len buf (buf.length + 1) = some (.ok F r)) ∧
    (∀ buf : List Nat, len < 0 → fixedRun len buf 1 = some .goPanic) ∧
    (∀ (fuel : Nat) (buf : List Nat), fixedRun 0 buf fuel = none) ∧
    (∀ buf : List Nat, d ≠ [] →
      ∃ F r, delimiterRun d buf (buf.length + 1) = some (.ok F r)) ∧
    (∀ (fuel : Nat) (buf : List Nat), delimiterRun [] buf fuel = none) ∧
    (∀ (fuel : Nat) (buf : List Nat) (F : List (List Nat)) (r : List Nat),
      (w = 1 ∨ w = 2 ∨ w = 4 ∨ w = 8) → strip ≤ o + w → (∀ b ∈ buf, b < 256) →
      lfClaimRun o w strip a ord buf fuel = some (some (F, r)) →
      lfRun o w a strip ord buf fuel = some (.ok F r)) := by
  refine ⟨fun _ => rfl, ?_, ?_, fixedRun_zero_none, ?_, delimiterRun_empty_none, ?_⟩
  · exact fun buf hlen => fixedRun_total len hlen buf.length buf le_rfl
  · exact fun buf hlen => fixedRun_neg_panic len hlen buf
  · exact fun buf hd => delimiterRun_total d hd buf.length buf le_rfl
  · exact fun fuel buf F r hw hstrip hb hc =>
      lfRun_nominal o w strip a ord hw hstrip fuel buf F r hb hc

/-- C9 counterexample: `LengthFieldFramer(0, 1, 0, 5, big-endian)` on
the single byte `00` — the packet is complete (frameEnd 1) but
`initialBytesToStrip = 5` exceeds it, so `buf[5:1]` panics; and
`FixedLengthFramer(-1)` panics on `buf[:-1]` at once.  The claim
asserted both return without panicking. -/
theorem framer_totality_counterexample :
    lfRun 0 1 0 5 .big [0] 2 = some .goPanic ∧
    fixedRun (-1) [65] 1 = some .goPanic := by
  exact ⟨by decide, by decide⟩

/-- C9 witness: `FixedLengthFramer(3)` on a 4-byte buffer terminates
with a settled result within 5 iterations. -/
theorem framer_totality_witness :
    ∃ F r, fixedRun 3 [1, 2, 3, 4] 5 = some (.ok F r) :=
  (framer_totality 3 [] 0 1 0 0 .big).2.1 [1, 2, 3, 4] (by norm_num)

end Uno
